import Mathlib

/-!
Verification of the path sandbox, editor, safe I/O and duplicate finder of the
`mcp-filesystem-server` repository (Go), as a shallow embedding in Lean 4.

Modelling conventions, used throughout:
* Go strings are embedded as `List Char` (the server only ever handles them
  bytewise or runewise; no claim depends on UTF-8 subtleties).
* The filesystem is an explicit finite map from canonical component lists to
  nodes (`FNode`); syscalls (`os.Stat`, `filepath.EvalSymlinks`, `os.ReadFile`,
  `os.WriteFile`, `os.Rename`, `os.Remove`, `os.MkdirAll`) become functions
  over that map.  Fallible writes/renames take an explicit behaviour oracle so
  that failure paths of the handlers can be exercised.
* External libraries used by the source (`mimetype` content sniffing, stdlib
  `base64`, stdlib `regexp`, stdlib `md5`) are embedded as opaque function
  parameters: no claim depends on their concrete output, only on how the
  handlers route their results.
* Only POSIX ("/"-separated) paths are modelled; the Windows volume handling
  in `path/filepath` is dead code for the deployment the spec describes.
-/

namespace FsSrv

/-- A path component (between separators), e.g. `['s','r','v']`. -/
abbrev Comp := List Char

/-- Split a Go string on the separator char `/`, keeping empty parts,
exactly like indexing between separators does in `path/filepath`
(`splitSep "/a//b" = ["", "a", "", "b"]`). -/
def splitSep : List Char → List Comp
  | [] => [[]]
  | c :: rest =>
    if c = '/' then [] :: splitSep rest
    else
      match splitSep rest with
      | [] => [[c]]
      | g :: gs => (c :: g) :: gs

/-- Raw components of a path string (parts between `/`, empties kept). -/
def parts (p : List Char) : List Comp := splitSep p

/-- Join components with a leading separator: the string form of a canonical
absolute path (`fromComps [] = "/"`, `fromComps [a,b] = "/a/b"`), as built by
`filepath.Clean` / `EvalSymlinks` for rooted paths. -/
def sepJoin (cs : List Comp) : List Char := cs.flatMap (fun c => '/' :: c)

def fromComps (cs : List Comp) : List Char :=
  if cs = [] then ['/'] else sepJoin cs

/-- The lexical cleaning pass of `filepath.Clean` on a rooted path:
drop empty and `.` parts, pop on `..` (never above the root).  `filepath.Abs`
always returns such a cleaned rooted path. -/
def cleanComps (done : List Comp) : List Comp → List Comp
  | [] => done
  | c :: rest =>
    if c = [] ∨ c = ['.'] then cleanComps done rest
    else if c = ['.', '.'] then cleanComps done.dropLast rest
    else cleanComps (done ++ [c]) rest

/-- Component list of an absolute path string (its `filepath.Clean` form). -/
def strToComps (p : List Char) : List Comp := cleanComps [] (parts p)

/-- `filepath.Abs`: join with the working directory when relative, then clean.
`cwd` is the process working directory, given as clean components. -/
def absComps (cwd : List Comp) (r : List Char) : List Comp :=
  if r.head? = some '/' then cleanComps [] (parts r)
  else cleanComps [] (cwd ++ parts r)

def absStr (cwd : List Comp) (r : List Char) : List Char :=
  fromComps (absComps cwd r)

/-- `filepath.Dir` on a clean absolute path string: drop the final component
(`dirStr "/a/b" = "/a"`, `dirStr "/" = "/"`). -/
def dirStr (p : List Char) : List Char := fromComps (strToComps p).dropLast

/-- A component is an ordinary name: nonempty, not a dot part, separator-free.
All components of canonical paths have this shape. -/
def goodName (c : Comp) : Prop :=
  c ≠ [] ∧ c ≠ ['.'] ∧ c ≠ ['.', '.'] ∧ '/' ∉ c

instance (c : Comp) : Decidable (goodName c) := by
  unfold goodName; infer_instance

def goodNames (cs : List Comp) : Prop := ∀ c ∈ cs, goodName c

instance (cs : List Comp) : Decidable (goodNames cs) := by
  unfold goodNames; infer_instance

/-! ## The filesystem model -/

/-- A filesystem node: regular file (with its bytes), directory, or symbolic
link (with its raw target string). -/
inductive FNode where
  | file (content : List Char)
  | dir
  | symlink (target : List Char)
  deriving DecidableEq, Repr

def FNode.isDir : FNode → Bool
  | .dir => true
  | _ => false

def FNode.isSymlink : FNode → Bool
  | .symlink _ => true
  | _ => false

/-- A filesystem: a finite map from canonical component lists to nodes.
The root `[]` always exists and is a directory. -/
abbrev FS := List (List Comp × FNode)

/-- Association-list lookup. -/
def lookupFS : List (List Comp × FNode) → List Comp → Option FNode
  | [], _ => none
  | e :: rest, p => if e.1 = p then some e.2 else lookupFS rest p

/-- Lookup (the `os.Lstat` of a canonical path).  The root is always a
directory. -/
def FS.findC (fs : FS) (p : List Comp) : Option FNode :=
  if p = [] then some .dir else lookupFS fs p

deriving instance DecidableEq for Except

/-- Resolution errors, distinguishing Go's `os.IsNotExist` class. -/
inductive RErr where
  | notExist      -- ENOENT
  | notDir        -- ENOTDR: regular file used as a directory
  | tooManyLinks  -- EvalSymlinks: too many links
  deriving DecidableEq, Repr

/-- Outcome of walking components up to the next symlink: either a final
result, or a symlink was hit (with the resolved prefix, the link target and
the remaining components). -/
inductive WalkRes where
  | fin (r : Except RErr (List Comp))
  | link (done : List Comp) (target : List Char) (rest : List Comp)
  deriving DecidableEq, Repr

/-- The symlink-free part of the `filepath.EvalSymlinks` loop
(`walkSymlinks`): walk the pending components on top of the already-resolved
`done`; skip empty and `.` parts, pop on `..` (the kernel's `/.. = /` view),
`Lstat` each ordinary component; a regular file is only allowed as the last
component; stop at the first symlink. -/
def walkComps (fs : FS) (done : List Comp) : List Comp → WalkRes
  | [] => .fin (.ok done)
  | c :: rest =>
    if c = [] ∨ c = ['.'] then walkComps fs done rest
    else if c = ['.', '.'] then walkComps fs done.dropLast rest
    else
      match fs.findC (done ++ [c]) with
      | none => .fin (.error .notExist)
      | some (.file _) =>
        if rest = [] then .fin (.ok (done ++ [c])) else .fin (.error .notDir)
      | some .dir => walkComps fs (done ++ [c]) rest
      | some (.symlink t) => .link done t rest

/-- The symlink-expansion loop of `filepath.EvalSymlinks`: each symlink hit
spends one unit of the link budget (Go allows 255 walked links) and splices
the target's parts in front of the remainder — against the root for an
absolute target, against the link's directory otherwise. -/
def resolveFuel (fs : FS) : Nat → List Comp → List Comp → Except RErr (List Comp)
  | fuel, done, todo =>
    match walkComps fs done todo with
    | .fin r => r
    | .link d t rest =>
      match fuel with
      | 0 => .error .tooManyLinks
      | fuel' + 1 =>
        if t.head? = some '/' then resolveFuel fs fuel' [] (parts t ++ rest)
        else resolveFuel fs fuel' d (parts t ++ rest)

/-- `filepath.EvalSymlinks` on an absolute path string, returning the
canonical component list of the real path. -/
def resolveStr (fs : FS) (p : List Char) : Except RErr (List Comp) :=
  resolveFuel fs 255 [] (parts p)

/-- `os.Stat`: resolve (following symlinks), then look up the node. -/
def statStr (fs : FS) (p : List Char) : Option FNode :=
  match resolveStr fs p with
  | .ok c => fs.findC c
  | .error _ => none

/-- `os.ReadFile`: resolve, the target must be a regular file. -/
def readFileStr (fs : FS) (p : List Char) : Option (List Char) :=
  match statStr fs p with
  | some (.file cont) => some cont
  | _ => none

/-! ## The path sandbox (`handler.go`: `NewFilesystemHandler`,
`isPathInAllowedDirs`, `validatePath`) -/

/-- One observable filesystem syscall issued by the sandbox or a read
handler, recorded with the path argument the program passed to it. -/
inductive FsOp where
  | statOp (p : List Char)      -- os.Stat
  | evalOp (p : List Char)      -- filepath.EvalSymlinks
  | readOp (p : List Char)      -- os.ReadFile
  deriving DecidableEq, Repr

/-- The path argument of a recorded syscall. -/
def FsOp.path : FsOp → List Char
  | .statOp p => p
  | .evalOp p => p
  | .readOp p => p

/-- `isPathInAllowedDirs` (handler.go:1629), instrumented with the syscalls
it issues: absolutize, then — unless the path already ends with the
separator — `os.Stat` it and, for an existing regular file, substitute its
parent directory; finally require some allowed dir (separator-terminated) to
be a string prefix of the separator-terminated path. -/
def isPathInAllowedDirsT (fs : FS) (allowedDirs : List (List Char))
    (cwd : List Comp) (path : List Char) : Bool × List FsOp :=
  let absPath := absStr cwd path
  let probe :=
    if absPath.getLast? = some '/' then (absPath, ([] : List FsOp))
    else
      match statStr fs absPath with
      | some n =>
        if ¬ n.isDir then (dirStr absPath ++ ['/'], [FsOp.statOp absPath])
        else (absPath ++ ['/'], [FsOp.statOp absPath])
      | none => (absPath ++ ['/'], [FsOp.statOp absPath])
  (allowedDirs.any (fun d => d.isPrefixOf probe.1), probe.2)

def isPathInAllowedDirs (fs : FS) (allowedDirs : List (List Char))
    (cwd : List Comp) (path : List Char) : Bool :=
  (isPathInAllowedDirsT fs allowedDirs cwd path).1

/-- Error messages of `validatePath`, as built by its `fmt.Errorf` calls. -/
def msgOutside (a : List Char) : List Char :=
  ("access denied - path outside allowed directories: ").toList ++ a

def msgSymlinkOutside : List Char :=
  ("access denied - symlink target outside allowed directories").toList

def msgParentOutside : List Char :=
  ("access denied - parent directory outside allowed directories").toList

def msgParentMissing (parent : List Char) : List Char :=
  ("parent directory does not exist: ").toList ++ parent

/-- Placeholder for the OS error text Go attaches to a non-ENOENT
resolution failure (`return "", err` in `validatePath`). -/
def msgResolveErr : RErr → List Char
  | .notDir => ("not a directory").toList
  | .tooManyLinks => ("EvalSymlinks: too many links").toList
  | .notExist => ("no such file or directory").toList

/-- `validatePath` (handler.go:1735), instrumented: absolutize; lexical
allow-list check; `EvalSymlinks`; on success check the allow-list again on
the resolved path; on ENOENT resolve and check the parent instead and return
the unresolved absolute path; surface every other resolution error. -/
def validatePathT (fs : FS) (allowedDirs : List (List Char)) (cwd : List Comp)
    (requestedPath : List Char) : Except (List Char) (List Char) × List FsOp :=
  let a := absStr cwd requestedPath
  let c1 := isPathInAllowedDirsT fs allowedDirs cwd a
  if ¬ c1.1 then (.error (msgOutside a), c1.2)
  else
    match resolveStr fs a with
    | .ok rc =>
      let realPath := fromComps rc
      let c2 := isPathInAllowedDirsT fs allowedDirs cwd realPath
      if ¬ c2.1 then
        (.error msgSymlinkOutside, c1.2 ++ [FsOp.evalOp a] ++ c2.2)
      else (.ok realPath, c1.2 ++ [FsOp.evalOp a] ++ c2.2)
    | .error .notExist =>
      let parent := dirStr a
      match resolveStr fs parent with
      | .ok pc =>
        let realParent := fromComps pc
        let c3 := isPathInAllowedDirsT fs allowedDirs cwd realParent
        if ¬ c3.1 then
          (.error msgParentOutside,
            c1.2 ++ [FsOp.evalOp a, FsOp.evalOp parent] ++ c3.2)
        else (.ok a, c1.2 ++ [FsOp.evalOp a, FsOp.evalOp parent] ++ c3.2)
      | .error _ =>
        (.error (msgParentMissing parent),
          c1.2 ++ [FsOp.evalOp a, FsOp.evalOp parent])
    | .error e => (.error (msgResolveErr e), c1.2 ++ [FsOp.evalOp a])

def validatePath (fs : FS) (allowedDirs : List (List Char)) (cwd : List Comp)
    (requestedPath : List Char) : Except (List Char) (List Char) :=
  (validatePathT fs allowedDirs cwd requestedPath).1

/-- The per-directory normalization of `NewFilesystemHandler` (handler.go:1598):
absolutize, require an existing directory, then store
`filepath.Clean(abs) + separator`. -/
def normalizeDir (fs : FS) (cwd : List Comp) (d : List Char) :
    Option (List Char) :=
  let a := absStr cwd d
  match statStr fs a with
  | some .dir => some (fromComps (strToComps a) ++ ['/'])
  | _ => none

/-- `NewFilesystemHandler`: normalize every configured directory, failing if
any is not an existing directory. -/
def newFilesystemHandler (fs : FS) (cwd : List Comp)
    (dirs : List (List Char)) : Option (List (List Char)) :=
  dirs.mapM (normalizeDir fs cwd)

/-! ## Basic facts about the path-string functions -/

theorem splitSep_ne_nil (p : List Char) : splitSep p ≠ [] := by
  match p with
  | [] => simp [splitSep]
  | c :: rest =>
    simp only [splitSep]
    split
    · simp
    · match h : splitSep rest with
      | [] => simp
      | g :: gs => simp

theorem splitSep_noSlash (p : List Char) :
    ∀ c ∈ splitSep p, '/' ∉ c := by
  match p with
  | [] => simp [splitSep]
  | a :: rest =>
    by_cases ha : a = '/'
    · simp only [splitSep, if_pos ha]
      intro c hc
      rcases List.mem_cons.1 hc with h | h
      · simp [h]
      · exact splitSep_noSlash rest c h
    · simp only [splitSep, if_neg ha]
      rcases hg : splitSep rest with _ | ⟨g, gs⟩
      · exact absurd hg (splitSep_ne_nil rest)
      · intro c hc
        rcases List.mem_cons.1 hc with h | h
        · subst h
          intro hm
          rcases List.mem_cons.1 hm with h' | h'
          · exact ha h'.symm
          · exact splitSep_noSlash rest g (hg ▸ List.mem_cons_self g gs) h'
        · exact splitSep_noSlash rest c (hg ▸ List.mem_cons_of_mem g h)

/-- Splitting a separator-free string yields a single part. -/
theorem splitSep_noSep (c : List Char) (h : '/' ∉ c) : splitSep c = [c] := by
  match c with
  | [] => rfl
  | a :: rest =>
    have ha : ¬ a = '/' := fun e => h (by simp [e])
    have hr : '/' ∉ rest := fun e => h (List.mem_cons_of_mem a e)
    simp only [splitSep, if_neg ha, splitSep_noSep rest hr]

theorem splitSep_append_noSep (c s : List Char) (h : '/' ∉ c)
    (g : Comp) (gs : List Comp) (hs : splitSep s = g :: gs) :
    splitSep (c ++ s) = (c ++ g) :: gs := by
  match c with
  | [] => simpa using hs
  | a :: rest =>
    have ha : ¬ a = '/' := fun e => h (by simp [e])
    have hr : '/' ∉ rest := fun e => h (List.mem_cons_of_mem a e)
    have ih := splitSep_append_noSep rest s hr g gs hs
    show splitSep (a :: (rest ++ s)) = _
    simp only [splitSep, if_neg ha, ih, List.cons_append]

theorem sepJoin_append (a b : List Comp) :
    sepJoin (a ++ b) = sepJoin a ++ sepJoin b := by
  simp [sepJoin, List.flatMap_append]

theorem sepJoin_head (cs : List Comp) (h : cs ≠ []) :
    (sepJoin cs).head? = some '/' := by
  match cs with
  | [] => exact absurd rfl h
  | c :: rest => simp [sepJoin]

/-- Joining good components and splitting again is the identity (with the
leading empty part produced by the leading separator). -/
theorem goodNames_head {c : Comp} {rest : List Comp}
    (h : goodNames (c :: rest)) : goodName c :=
  h c (List.mem_cons_self c rest)

theorem goodNames_tail {c : Comp} {rest : List Comp}
    (h : goodNames (c :: rest)) : goodNames rest :=
  fun d hd => h d (List.mem_cons_of_mem c hd)

theorem goodName_noSlash {c : Comp} (h : goodName c) : '/' ∉ c := h.2.2.2

theorem goodName_ne {c : Comp} (h : goodName c) :
    ¬ (c = [] ∨ c = ['.']) ∧ c ≠ ['.', '.'] :=
  ⟨by push_neg; exact ⟨h.1, h.2.1⟩, h.2.2.1⟩

theorem parts_sepJoin (cs : List Comp) (h : goodNames cs) (hne : cs ≠ []) :
    parts (sepJoin cs) = [] :: cs := by
  match cs with
  | [] => exact absurd rfl hne
  | c :: rest =>
    have hcs : '/' ∉ c := goodName_noSlash (goodNames_head h)
    have hrest : goodNames rest := goodNames_tail h
    match rest with
    | [] =>
      show splitSep (sepJoin [c]) = [[], c]
      rw [show sepJoin [c] = '/' :: (c ++ []) from by simp [sepJoin]]
      rw [show splitSep ('/' :: (c ++ [])) = [] :: splitSep (c ++ []) from by
        simp [splitSep]]
      rw [List.append_nil, splitSep_noSep c hcs]
    | d :: rest' =>
      have ih := parts_sepJoin (d :: rest') hrest (by simp)
      have key := splitSep_append_noSep c (sepJoin (d :: rest')) hcs
        [] (d :: rest') ih
      show splitSep (sepJoin (c :: d :: rest')) = _
      rw [show sepJoin (c :: d :: rest') = '/' :: (c ++ sepJoin (d :: rest'))
        from by simp [sepJoin]]
      rw [show splitSep ('/' :: (c ++ sepJoin (d :: rest'))) =
          [] :: splitSep (c ++ sepJoin (d :: rest')) from by simp [splitSep]]
      rw [key]
      simp

theorem fromComps_head (cs : List Comp) : (fromComps cs).head? = some '/' := by
  by_cases h : cs = []
  · simp [fromComps, h]
  · simp [fromComps, h, sepJoin_head cs h]

theorem parts_fromComps (cs : List Comp) (h : goodNames cs) (hne : cs ≠ []) :
    parts (fromComps cs) = [] :: cs := by
  rw [fromComps, if_neg hne]
  exact parts_sepJoin cs h hne

/-- `cleanComps` leaves good components untouched, appending them to the
accumulator. -/
theorem cleanComps_app (l : List Comp) (acc : List Comp)
    (h : goodNames l) : cleanComps acc l = acc ++ l := by
  match l with
  | [] => simp [cleanComps]
  | c :: rest =>
    have hne := goodName_ne (goodNames_head h)
    rw [cleanComps, if_neg hne.1, if_neg hne.2,
      cleanComps_app rest _ (goodNames_tail h)]
    simp

theorem strToComps_fromComps (cs : List Comp) (h : goodNames cs) :
    strToComps (fromComps cs) = cs := by
  by_cases hne : cs = []
  · subst hne
    simp [strToComps, fromComps, parts, splitSep, cleanComps]
  · simp [strToComps, parts_fromComps cs h hne, cleanComps,
      cleanComps_app cs [] h]

/-! ## Canonical paths: the output of `EvalSymlinks` resolves to itself -/

/-- `CanonDirs fs base l`: descending from `base` through `l` meets only real
directories (no symlinks, no missing entries), and every component is an
ordinary name. -/
def CanonDirs (fs : FS) : List Comp → List Comp → Prop
  | _, [] => True
  | base, c :: rest =>
    goodName c ∧ fs.findC (base ++ [c]) = some FNode.dir ∧
      CanonDirs fs (base ++ [c]) rest

/-- `CanonSuffix fs base l`: like `CanonDirs`, but the final component may be
any non-symlink node (directory or regular file). -/
def CanonSuffix (fs : FS) : List Comp → List Comp → Prop
  | _, [] => True
  | base, [c] =>
    goodName c ∧ ∃ n, fs.findC (base ++ [c]) = some n ∧ n.isSymlink = false
  | base, c :: rest =>
    goodName c ∧ fs.findC (base ++ [c]) = some FNode.dir ∧
      CanonSuffix fs (base ++ [c]) rest

theorem canonDirs_suffix (fs : FS) (l : List Comp) :
    ∀ base, CanonDirs fs base l → CanonSuffix fs base l := by
  match l with
  | [] => intro base _; trivial
  | [c] =>
    intro base h
    obtain ⟨hg, hd, -⟩ := h
    exact ⟨hg, FNode.dir, hd, rfl⟩
  | c :: d :: rest =>
    intro base h
    obtain ⟨hg, hd, hrest⟩ := h
    exact ⟨hg, hd, canonDirs_suffix fs (d :: rest) (base ++ [c]) hrest⟩

theorem canonDirs_dropLast (fs : FS) (l : List Comp) :
    ∀ base, CanonDirs fs base l → CanonDirs fs base l.dropLast := by
  match l with
  | [] => intro base _; trivial
  | [c] => intro base _; trivial
  | c :: d :: rest =>
    intro base h
    obtain ⟨hg, hd, hrest⟩ := h
    exact ⟨hg, hd, canonDirs_dropLast fs (d :: rest) (base ++ [c]) hrest⟩

theorem canonDirs_snoc (fs : FS) (l : List Comp) :
    ∀ base c, CanonDirs fs base l → goodName c →
      fs.findC (base ++ l ++ [c]) = some FNode.dir →
      CanonDirs fs base (l ++ [c]) := by
  match l with
  | [] =>
    intro base c _ hg hd
    exact ⟨hg, by simpa using hd, trivial⟩
  | d :: rest =>
    intro base c h hg hd
    obtain ⟨hg', hd', hrest⟩ := h
    refine ⟨hg', hd', canonDirs_snoc fs rest (base ++ [d]) c hrest hg ?_⟩
    simpa [List.append_assoc] using hd

theorem canonSuffix_snoc (fs : FS) (l : List Comp) :
    ∀ base c n, CanonDirs fs base l → goodName c →
      fs.findC (base ++ l ++ [c]) = some n → n.isSymlink = false →
      CanonSuffix fs base (l ++ [c]) := by
  match l with
  | [] =>
    intro base c n _ hg hd hs
    exact ⟨hg, n, by simpa using hd, hs⟩
  | d :: rest =>
    intro base c n h hg hd hs
    obtain ⟨hg', hd', hrest⟩ := h
    have tail := canonSuffix_snoc fs rest (base ++ [d]) c n hrest hg
      (by simpa [List.append_assoc] using hd) hs
    match rest with
    | [] => exact ⟨hg', hd', tail⟩
    | e :: rest' => exact ⟨hg', hd', tail⟩

theorem canonSuffix_goodNames (fs : FS) (l : List Comp) :
    ∀ base, CanonSuffix fs base l → goodNames l := by
  match l with
  | [] => intro base _ c hc; cases hc
  | [c] =>
    intro base h d hd
    rcases List.mem_singleton.1 hd with rfl
    exact h.1
  | c :: d :: rest =>
    intro base h e he
    obtain ⟨hg, -, hrest⟩ := h
    rcases List.mem_cons.1 he with rfl | he'
    · exact hg
    · exact canonSuffix_goodNames fs (d :: rest) (base ++ [c]) hrest e he'

theorem walk_ok_canon (fs : FS) (todo : List Comp) :
    ∀ done r, CanonDirs fs [] done → (∀ x ∈ todo, '/' ∉ x) →
      walkComps fs done todo = .fin (.ok r) → CanonSuffix fs [] r := by
  match todo with
  | [] =>
    intro done r hc _ hw
    simp only [walkComps, WalkRes.fin.injEq, Except.ok.injEq] at hw
    exact hw ▸ canonDirs_suffix fs done [] hc
  | c :: rest =>
    intro done r hc hs hw
    have hstail : ∀ x ∈ rest, '/' ∉ x :=
      fun x hx => hs x (List.mem_cons_of_mem c hx)
    rw [walkComps] at hw
    by_cases h1 : c = [] ∨ c = ['.']
    · rw [if_pos h1] at hw
      exact walk_ok_canon fs rest done r hc hstail hw
    · rw [if_neg h1] at hw
      by_cases h2 : c = ['.', '.']
      · rw [if_pos h2] at hw
        exact walk_ok_canon fs rest done.dropLast r
          (canonDirs_dropLast fs done [] hc) hstail hw
      · rw [if_neg h2] at hw
        have hg : goodName c :=
          ⟨fun e => h1 (Or.inl e), fun e => h1 (Or.inr e), h2,
            hs c (List.mem_cons_self c rest)⟩
        match hf : fs.findC (done ++ [c]) with
        | none => rw [hf] at hw; cases hw
        | some (.file cont) =>
          rw [hf] at hw
          by_cases h3 : rest = []
          · rw [if_pos h3] at hw
            simp only [WalkRes.fin.injEq, Except.ok.injEq] at hw
            subst hw
            exact canonSuffix_snoc fs done [] c (.file cont) (by simpa using hc)
              hg (by simpa using hf) rfl
          · rw [if_neg h3] at hw; cases hw
        | some .dir =>
          rw [hf] at hw
          exact walk_ok_canon fs rest (done ++ [c]) r
            (canonDirs_snoc fs done [] c (by simpa using hc) hg
              (by simpa using hf)) hstail hw
        | some (.symlink t) => rw [hf] at hw; cases hw

theorem walk_link_canon (fs : FS) (todo : List Comp) :
    ∀ done d t lrest, CanonDirs fs [] done → (∀ x ∈ todo, '/' ∉ x) →
      walkComps fs done todo = .link d t lrest →
      CanonDirs fs [] d ∧ (∀ x ∈ lrest, '/' ∉ x) := by
  match todo with
  | [] =>
    intro done d t lrest _ _ hw
    simp [walkComps] at hw
  | c :: rest =>
    intro done d t lrest hc hs hw
    have hstail : ∀ x ∈ rest, '/' ∉ x :=
      fun x hx => hs x (List.mem_cons_of_mem c hx)
    rw [walkComps] at hw
    by_cases h1 : c = [] ∨ c = ['.']
    · rw [if_pos h1] at hw
      exact walk_link_canon fs rest done d t lrest hc hstail hw
    · rw [if_neg h1] at hw
      by_cases h2 : c = ['.', '.']
      · rw [if_pos h2] at hw
        exact walk_link_canon fs rest done.dropLast d t lrest
          (canonDirs_dropLast fs done [] hc) hstail hw
      · rw [if_neg h2] at hw
        have hg : goodName c :=
          ⟨fun e => h1 (Or.inl e), fun e => h1 (Or.inr e), h2,
            hs c (List.mem_cons_self c rest)⟩
        match hf : fs.findC (done ++ [c]) with
        | none => rw [hf] at hw; cases hw
        | some (.file cont) =>
          rw [hf] at hw
          by_cases h3 : rest = []
          · rw [if_pos h3] at hw; cases hw
          · rw [if_neg h3] at hw; cases hw
        | some .dir =>
          rw [hf] at hw
          exact walk_link_canon fs rest (done ++ [c]) d t lrest
            (canonDirs_snoc fs done [] c (by simpa using hc) hg
              (by simpa using hf)) hstail hw
        | some (.symlink t') =>
          rw [hf] at hw
          cases hw
          exact ⟨hc, hstail⟩

/-- Successful symlink resolution yields a canonical path. -/
theorem resolveFuel_ok_canon (fs : FS) (fuel : Nat) :
    ∀ done todo r, CanonDirs fs [] done → (∀ x ∈ todo, '/' ∉ x) →
      resolveFuel fs fuel done todo = .ok r → CanonSuffix fs [] r := by
  match fuel with
  | 0 =>
    intro done todo r hc hs hr
    rw [resolveFuel] at hr
    match hw : walkComps fs done todo with
    | .fin res =>
      rw [hw] at hr
      dsimp only at hr
      exact walk_ok_canon fs todo done r hc hs (by rw [hw, hr])
    | .link d t lrest =>
      rw [hw] at hr
      dsimp only at hr
      cases hr
  | fuel' + 1 =>
    intro done todo r hc hs hr
    rw [resolveFuel] at hr
    match hw : walkComps fs done todo with
    | .fin res =>
      rw [hw] at hr
      dsimp only at hr
      exact walk_ok_canon fs todo done r hc hs (by rw [hw, hr])
    | .link d t lrest =>
      rw [hw] at hr
      dsimp only at hr
      obtain ⟨hcd, hsrest⟩ := walk_link_canon fs todo done d t lrest hc hs hw
      have hsplice : ∀ x ∈ parts t ++ lrest, '/' ∉ x := by
        intro x hx
        rcases List.mem_append.1 hx with hx' | hx'
        · exact splitSep_noSlash t x hx'
        · exact hsrest x hx'
      by_cases habs : t.head? = some '/'
      · rw [if_pos habs] at hr
        exact resolveFuel_ok_canon fs fuel' [] (parts t ++ lrest) r
          trivial hsplice hr
      · rw [if_neg habs] at hr
        exact resolveFuel_ok_canon fs fuel' d (parts t ++ lrest) r
          hcd hsplice hr

theorem resolveStr_ok_canon (fs : FS) (p : List Char) (rc : List Comp)
    (h : resolveStr fs p = .ok rc) : CanonSuffix fs [] rc :=
  resolveFuel_ok_canon fs 255 [] (parts p) rc trivial
    (fun x hx => splitSep_noSlash p x hx) h

/-- Walking a canonical suffix hits no symlink and succeeds in place. -/
theorem walk_of_canon (fs : FS) (l : List Comp) :
    ∀ base, CanonSuffix fs base l →
      walkComps fs base l = .fin (.ok (base ++ l)) := by
  match l with
  | [] =>
    intro base _
    simp [walkComps]
  | [c] =>
    intro base h
    obtain ⟨hg, n, hn, hsym⟩ := h
    have hne := goodName_ne hg
    rw [walkComps, if_neg hne.1, if_neg hne.2, hn]
    match n with
    | .file cont => simp
    | .dir => simp [walkComps]
    | .symlink t => simp [FNode.isSymlink] at hsym
  | c :: d :: rest =>
    intro base h
    obtain ⟨hg, hd, hsuf⟩ := h
    have hne := goodName_ne hg
    rw [walkComps, if_neg hne.1, if_neg hne.2, hd]
    rw [walk_of_canon fs (d :: rest) (base ++ [c]) hsuf]
    simp

/-- The canonical output of a successful resolution resolves to itself:
`EvalSymlinks` is idempotent on a static filesystem. -/
theorem resolveStr_idem (fs : FS) (p : List Char) (rc : List Comp)
    (h : resolveStr fs p = .ok rc) :
    resolveStr fs (fromComps rc) = .ok rc := by
  have hcanon := resolveStr_ok_canon fs p rc h
  have hgood := canonSuffix_goodNames fs rc [] hcanon
  by_cases hne : rc = []
  · subst hne
    simp [resolveStr, resolveFuel, walkComps, parts, splitSep, fromComps]
  · rw [resolveStr, parts_fromComps rc hgood hne, resolveFuel]
    have hwalk : walkComps fs [] ([] :: rc) = .fin (.ok rc) := by
      rw [walkComps, if_pos (Or.inl rfl)]
      simpa using walk_of_canon fs rc [] hcanon
    rw [hwalk]

/-! ## The separator-terminated prefix check, componentwise -/

theorem slashfree_prefix_eq (d : List Char) :
    ∀ (c X Y : List Char), '/' ∉ d → '/' ∉ c →
      X.head? = some '/' → Y.head? = some '/' →
      (d ++ X <+: c ++ Y) → d = c ∧ X <+: Y := by
  match d with
  | [] =>
    intro c X Y _ hc hX hY hp
    match c with
    | [] => exact ⟨rfl, by simpa using hp⟩
    | b :: c' =>
      exfalso
      match X, hX with
      | x :: X', hX =>
        have hx : x = '/' := by simpa using hX
        have := (List.cons_prefix_cons.1 (by simpa using hp)).1
        exact hc (by simp [← this, hx])
  | a :: d' =>
    intro c X Y hd hc hX hY hp
    have had : '/' ∉ d' := fun e => hd (List.mem_cons_of_mem a e)
    match c with
    | [] =>
      exfalso
      match Y, hY with
      | y :: Y', hY =>
        have hy : y = '/' := by simpa using hY
        have := (List.cons_prefix_cons.1 (by simpa using hp)).1
        exact hd (by simp [this, hy])
    | b :: c' =>
      have hbc : '/' ∉ c' := fun e => hc (List.mem_cons_of_mem b e)
      have hp' := List.cons_prefix_cons.1 (by simpa using hp)
      obtain ⟨rfl, hrest⟩ := hp'
      obtain ⟨heq, hXY⟩ := slashfree_prefix_eq d' c' X Y had hbc hX hY hrest
      exact ⟨by rw [heq], hXY⟩

theorem sepJoin_slash_head (l : List Comp) :
    (sepJoin l ++ ['/']).head? = some '/' := by
  match l with
  | [] => rfl
  | c :: rest => simp [sepJoin]

theorem prefix_names_comps (ds : List Comp) :
    ∀ cs, goodNames ds → goodNames cs →
      (sepJoin ds ++ ['/'] <+: sepJoin cs ++ ['/']) → ds <+: cs := by
  match ds with
  | [] => intro cs _ _ _; exact List.nil_prefix
  | d :: ds' =>
    intro cs hds hcs hp
    have hdg : goodName d := goodNames_head hds
    match cs with
    | [] =>
      exfalso
      have hlen := hp.length_le
      simp [sepJoin] at hlen
    | c :: cs' =>
      have hcg : goodName c := goodNames_head hcs
      have hsp : ('/' :: (d ++ (sepJoin ds' ++ ['/']))) <+:
          ('/' :: (c ++ (sepJoin cs' ++ ['/']))) := by
        simpa [sepJoin, List.append_assoc] using hp
      have hrest := (List.cons_prefix_cons.1 hsp).2
      obtain ⟨heq, hXY⟩ := slashfree_prefix_eq d c (sepJoin ds' ++ ['/'])
        (sepJoin cs' ++ ['/']) (goodName_noSlash hdg) (goodName_noSlash hcg)
        (sepJoin_slash_head ds') (sepJoin_slash_head cs') hrest
      have ih := prefix_names_comps ds' cs' (goodNames_tail hds)
        (goodNames_tail hcs) hXY
      rw [heq]
      exact List.cons_prefix_cons.2 ⟨rfl, ih⟩

theorem root_prefix_comps (ds cs : List Comp) (hds : goodNames ds)
    (hcs : goodNames cs)
    (hp : fromComps ds ++ ['/'] <+: fromComps cs ++ ['/']) : ds <+: cs := by
  by_cases hnds : ds = []
  · subst hnds; exact List.nil_prefix
  · by_cases hncs : cs = []
    · exfalso
      subst hncs
      have hlen := hp.length_le
      match ds, hnds with
      | d :: ds', _ =>
        have hdg : goodName d := goodNames_head hds
        have hd1 : 1 ≤ d.length := by
          cases d with
          | nil => exact absurd rfl hdg.1
          | cons a l => simp
        simp [fromComps, sepJoin] at hlen
        omega
    · rw [fromComps, if_neg hnds, fromComps, if_neg hncs] at hp
      exact prefix_names_comps ds cs hds hcs hp

theorem noSlash_getLast (c : List Char) (h : '/' ∉ c) (hne : c ≠ []) :
    c.getLast? ≠ some '/' := by
  rw [List.getLast?_eq_getLast c hne]
  intro heq
  exact h (Option.some.inj heq ▸ List.getLast_mem hne)

theorem fromComps_getLast_ne (cs : List Comp) (h : goodNames cs)
    (hne : cs ≠ []) : (fromComps cs).getLast? ≠ some '/' := by
  match cs with
  | [c] =>
    have hg : goodName c := goodNames_head h
    have hc : c ≠ [] := hg.1
    rw [show fromComps [c] = ['/'] ++ c from by simp [fromComps, sepJoin]]
    rw [List.getLast?_append_of_ne_nil ['/'] hc]
    exact noSlash_getLast c (goodName_noSlash hg) hc
  | c :: d :: rest =>
    have htail := fromComps_getLast_ne (d :: rest) (goodNames_tail h) (by simp)
    have hjoin : fromComps (c :: d :: rest) =
        ('/' :: c) ++ fromComps (d :: rest) := by
      simp [fromComps, sepJoin]
    rw [hjoin, List.getLast?_append_of_ne_nil ('/' :: c)
      (by simp [fromComps, sepJoin])]
    exact htail

theorem absStr_fromComps (cwd : List Comp) (cs : List Comp)
    (h : goodNames cs) : absStr cwd (fromComps cs) = fromComps cs := by
  rw [absStr, absComps, if_pos (fromComps_head cs)]
  show fromComps (strToComps (fromComps cs)) = fromComps cs
  rw [strToComps_fromComps cs h]

theorem dirStr_fromComps (cs : List Comp) (h : goodNames cs) :
    dirStr (fromComps cs) = fromComps cs.dropLast := by
  rw [dirStr, strToComps_fromComps cs h]

/-- The spec-side confinement predicate: the canonical components `cs` lie
inside the allowed root `d` (which is stored separator-terminated, as
`NewFilesystemHandler` normalizes it). -/
def InAllowed (dirs : List (List Char)) (cs : List Comp) : Prop :=
  ∃ d ∈ dirs, ∃ ds, goodNames ds ∧ d = fromComps ds ++ ['/'] ∧ ds <+: cs

/-- Shape of a normalized allowed root: the separator-terminated form of a
clean absolute path.  Executable, for concrete witnesses. -/
def goodRoot (d : List Char) : Prop :=
  goodNames (strToComps d.dropLast) ∧
    d = fromComps (strToComps d.dropLast) ++ ['/']

instance (d : List Char) : Decidable (goodRoot d) := by
  unfold goodRoot; infer_instance

def goodRoots (dirs : List (List Char)) : Prop := ∀ d ∈ dirs, goodRoot d

instance (dirs : List (List Char)) : Decidable (goodRoots dirs) := by
  unfold goodRoots; infer_instance

/-- A positive allow-list check on the string form of canonical components
gives componentwise confinement under some allowed root. -/
theorem allow_bridge (fs : FS) (dirs : List (List Char)) (cwd : List Comp)
    (cs : List Comp) (hg : goodNames cs) (hroots : goodRoots dirs)
    (hc : isPathInAllowedDirs fs dirs cwd (fromComps cs) = true) :
    InAllowed dirs cs := by
  rw [isPathInAllowedDirs, isPathInAllowedDirsT] at hc
  simp only [absStr_fromComps cwd cs hg] at hc
  rw [List.any_eq_true] at hc
  obtain ⟨d, hd, hpre⟩ := hc
  obtain ⟨hdg, hdeq⟩ := hroots d hd
  set ds := strToComps d.dropLast with hds
  refine ⟨d, hd, ds, hdg, hdeq, ?_⟩
  have hpre' := List.isPrefixOf_iff_prefix.1 hpre
  by_cases hne : cs = []
  · exfalso
    subst hne
    rw [if_pos (by simp [fromComps])] at hpre'
    have hlen := hpre'.length_le
    rw [hdeq] at hlen
    have h1 : 1 ≤ (fromComps ds).length := by
      by_cases h0 : ds = []
      · simp [fromComps, h0]
      · match ds, h0 with
        | e :: ds', _ => simp [fromComps, sepJoin]
    have hroot : (fromComps ([] : List Comp)).length = 1 := rfl
    rw [hroot, List.length_append] at hlen
    simp only [List.length_singleton] at hlen
    omega
  · rw [if_neg (fromComps_getLast_ne cs hg hne)] at hpre'
    rw [hdeq] at hpre'
    rcases hstat : statStr fs (fromComps cs) with _ | n
    · rw [hstat] at hpre'
      dsimp only at hpre'
      exact root_prefix_comps ds cs hdg hg hpre'
    · rw [hstat] at hpre'
      dsimp only at hpre'
      by_cases hdir : ¬ n.isDir = true
      · rw [if_pos hdir] at hpre'
        rw [dirStr_fromComps cs hg] at hpre'
        have hdrop := root_prefix_comps ds cs.dropLast hdg
          (fun x hx => hg x ((List.dropLast_sublist cs).subset hx)) hpre'
        exact hdrop.trans (List.dropLast_prefix cs)
      · rw [if_neg hdir] at hpre'
        exact root_prefix_comps ds cs hdg hg hpre'

theorem cleanComps_goodNames (l : List Comp) :
    ∀ acc, (∀ c ∈ l, '/' ∉ c) → goodNames acc →
      goodNames (cleanComps acc l) := by
  match l with
  | [] => intro acc _ hacc; exact hacc
  | c :: rest =>
    intro acc hs hacc
    have hstail : ∀ x ∈ rest, '/' ∉ x :=
      fun x hx => hs x (List.mem_cons_of_mem c hx)
    rw [cleanComps]
    by_cases h1 : c = [] ∨ c = ['.']
    · rw [if_pos h1]
      exact cleanComps_goodNames rest acc hstail hacc
    · rw [if_neg h1]
      by_cases h2 : c = ['.', '.']
      · rw [if_pos h2]
        exact cleanComps_goodNames rest acc.dropLast hstail
          (fun x hx => hacc x ((List.dropLast_sublist acc).subset hx))
      · rw [if_neg h2]
        refine cleanComps_goodNames rest (acc ++ [c]) hstail ?_
        intro x hx
        rcases List.mem_append.1 hx with hx' | hx'
        · exact hacc x hx'
        · rcases List.mem_singleton.1 hx' with rfl
          exact ⟨fun e => h1 (Or.inl e), fun e => h1 (Or.inr e), h2,
            hs x (List.mem_cons_self x rest)⟩

theorem absComps_goodNames (cwd : List Comp) (r : List Char)
    (hcwd : goodNames cwd) : goodNames (absComps cwd r) := by
  rw [absComps]
  by_cases habs : r.head? = some '/'
  · rw [if_pos habs]
    exact cleanComps_goodNames (parts r) []
      (fun c hc => splitSep_noSlash r c hc) (fun c hc => absurd hc (by simp))
  · rw [if_neg habs]
    refine cleanComps_goodNames (cwd ++ parts r) []
      ?_ (fun c hc => absurd hc (by simp))
    intro c hc
    rcases List.mem_append.1 hc with hc' | hc'
    · exact goodName_noSlash (hcwd c hc')
    · exact splitSep_noSlash r c hc'

/-! ## Claim C1: confinement of every validated path -/

/-- C1.  For every requested path accepted by `validatePath`, the
canonicalized validated path lies inside some allowed root: in the existing
case the validated path is its own canonical form (`EvalSymlinks` returns it
unchanged) and its components extend some allowed root; in the
not-yet-existing case (`EvalSymlinks` of the absolutized request fails with
ENOENT) the symlink-resolved parent of the validated path lies inside some
allowed root. -/
theorem claim_C1_sandbox_confinement
    (fs : FS) (dirs : List (List Char)) (cwd : List Comp) (r v : List Char)
    (hroots : goodRoots dirs)
    (hok : validatePath fs dirs cwd r = .ok v) :
    (resolveStr fs v = .ok (strToComps v) ∧ InAllowed dirs (strToComps v))
    ∨ (resolveStr fs (absStr cwd r) = .error RErr.notExist ∧
       ∃ pc, resolveStr fs (dirStr v) = .ok pc ∧ InAllowed dirs pc) := by
  rw [validatePath, validatePathT] at hok
  by_cases hc1 : (isPathInAllowedDirsT fs dirs cwd (absStr cwd r)).1
  · rw [if_neg (by simp [hc1])] at hok
    rcases hres : resolveStr fs (absStr cwd r) with e | rc
    · rw [hres] at hok
      cases e with
      | notExist =>
        dsimp only at hok
        rcases hpar : resolveStr fs (dirStr (absStr cwd r)) with e' | pc
        · rw [hpar] at hok
          dsimp only at hok
          cases hok
        · rw [hpar] at hok
          dsimp only at hok
          by_cases hc3 :
              (isPathInAllowedDirsT fs dirs cwd (fromComps pc)).1
          · rw [if_neg (by simp [hc3])] at hok
            simp only [Except.ok.injEq] at hok
            subst hok
            refine Or.inr ⟨rfl, pc, hpar, ?_⟩
            have hcanon := resolveStr_ok_canon fs _ pc hpar
            have hgood := canonSuffix_goodNames fs pc [] hcanon
            exact allow_bridge fs dirs cwd pc hgood hroots hc3
          · rw [if_pos (by simpa using hc3)] at hok
            cases hok
      | notDir => dsimp only at hok; cases hok
      | tooManyLinks => dsimp only at hok; cases hok
    · rw [hres] at hok
      dsimp only at hok
      by_cases hc2 : (isPathInAllowedDirsT fs dirs cwd (fromComps rc)).1
      · rw [if_neg (by simp [hc2])] at hok
        simp only [Except.ok.injEq] at hok
        subst hok
        have hcanon := resolveStr_ok_canon fs _ rc hres
        have hgood := canonSuffix_goodNames fs rc [] hcanon
        refine Or.inl ⟨?_, ?_⟩
        · rw [strToComps_fromComps rc hgood]
          exact resolveStr_idem fs _ rc hres
        · rw [strToComps_fromComps rc hgood]
          exact allow_bridge fs dirs cwd rc hgood hroots hc2
      · rw [if_pos (by simpa using hc2)] at hok
        cases hok
  · rw [if_pos (by simpa using hc1)] at hok
    cases hok

/-! ## Content classification (`handler_utils.go`: `isTextFile`,
`isImageFile`) and the response envelope -/

/-- `strings.Contains`: does `sub` occur as a contiguous substring of `s`? -/
def containsSub (s sub : List Char) : Bool :=
  sub.isPrefixOf s ||
    match s with
    | [] => false
    | _ :: rest => containsSub rest sub

/-- The fixed allow-list of textual application MIME types. -/
def textApplicationTypes : List (List Char) :=
  [("application/json").toList, ("application/xml").toList,
   ("application/javascript").toList, ("application/x-javascript").toList,
   ("application/typescript").toList, ("application/x-typescript").toList,
   ("application/x-yaml").toList, ("application/yaml").toList,
   ("application/toml").toList, ("application/x-sh").toList,
   ("application/x-shellscript").toList]

/-- `isTextFile` (handler_utils.go:36). -/
def isTextFile (mimeType : List Char) : Bool :=
  ("text/").toList.isPrefixOf mimeType ||
  textApplicationTypes.contains mimeType ||
  containsSub mimeType ("+xml").toList ||
  containsSub mimeType ("+json").toList ||
  containsSub mimeType ("+yaml").toList ||
  ("text/x-").toList.isPrefixOf mimeType ||
  (("application/x-").toList.isPrefixOf mimeType &&
    (containsSub mimeType ("script").toList ||
     containsSub mimeType ("source").toList ||
     containsSub mimeType ("code").toList))

/-- `isImageFile` (handler_utils.go:80); its second disjunct (an
`application/xml` whose lowercase form ends in `.svg`) is unsatisfiable and
kept verbatim. -/
def isImageFile (mimeType : List Char) : Bool :=
  ("image/").toList.isPrefixOf mimeType ||
  (mimeType = ("application/xml").toList &&
    (".svg").toList.isSuffixOf (mimeType.map Char.toLower))

/-- `pathToResourceURI`. -/
def pathToResourceURI (p : List Char) : List Char := ("file://").toList ++ p

/-- size thresholds of types.go. -/
def MAX_INLINE_SIZE : Nat := 5 * 1024 * 1024
def MAX_BASE64_SIZE : Nat := 1 * 1024 * 1024
def MAX_CHUNK_SIZE : Nat := 1 * 1024 * 1024

/-- One item of the response envelope (`mcp.Content`). -/
inductive CItem where
  | text (s : List Char)
  | image (data : List Char) (mime : List Char)
  | resourceText (uri mime txt : List Char)
  | resourceBlob (uri mime blob : List Char)
  deriving DecidableEq, Repr

/-- The response envelope (`mcp.CallToolResult`). -/
structure ToolResult where
  content : List CItem
  isError : Bool
  deriving DecidableEq, Repr

def natStr (n : Nat) : List Char := (toString n).toList

def errEnvelope (msg : List Char) : ToolResult :=
  { content := [.text msg], isError := true }

/-- Message placeholder for the OS text of the stat error surfaced by
`handleReadFile` when the validated path cannot be stat'ed. -/
def msgStatErr : List Char := ("no such file or directory").toList

/-- `handleReadFile` (handler.go:2026), instrumented with the syscalls on the
requested path.  `sniff` is the `mimetype` library's content sniff
(`detectMimeType`), `b64` is stdlib base64 — both external to the spec'd
core; the sniff's own open of the file is subsumed in the oracle.  Syscall
order follows the source: validate, `os.Stat`, directory check, MIME
detection, size check against MAX_INLINE_SIZE, `os.ReadFile`, classify. -/
def handleReadFileT (fs : FS) (dirs : List (List Char)) (cwd : List Comp)
    (sniff : List Char → List Char) (b64 : List Char → List Char)
    (path : List Char) : ToolResult × List FsOp :=
  let pathArg := if path = ['.'] ∨ path = ['.', '/'] then fromComps cwd else path
  match validatePathT fs dirs cwd pathArg with
  | (.error e, tr) => (errEnvelope (("Error: ").toList ++ e), tr)
  | (.ok v, tr) =>
    match statStr fs v with
    | none =>
      (errEnvelope (("Error: ").toList ++ msgStatErr), tr ++ [.statOp v])
    | some FNode.dir =>
      let uri := pathToResourceURI v
      ({ content :=
          [.text (("This is a directory. Use the resource URI to browse its contents: ").toList ++ uri),
           .resourceText uri ("text/plain").toList
             (("Directory: ").toList ++ v)],
         isError := false }, tr ++ [.statOp v])
    | some (.symlink _) =>
      -- unreachable for validated paths (resolution never ends on a link);
      -- surfaced as the read error the source would hit
      (errEnvelope (("Error reading file: ").toList ++ msgStatErr),
        tr ++ [.statOp v])
    | some (.file cont) =>
      let mimeType := sniff cont
      let size := cont.length
      if size > MAX_INLINE_SIZE then
        let uri := pathToResourceURI v
        ({ content :=
            [.text (("File is too large to display inline (").toList ++
              natStr size ++ (" bytes). Access it via resource URI: ").toList ++ uri),
             .resourceText uri ("text/plain").toList
               (("Large file: ").toList ++ v ++ (" (").toList ++ mimeType ++
                 (", ").toList ++ natStr size ++ (" bytes)").toList)],
           isError := false }, tr ++ [.statOp v])
      else
        let tr := tr ++ [.statOp v, .readOp v]
        if isTextFile mimeType then
          ({ content := [.text cont], isError := false }, tr)
        else if isImageFile mimeType then
          if size ≤ MAX_BASE64_SIZE then
            ({ content :=
                [.text (("Image file: ").toList ++ v ++ (" (").toList ++
                  mimeType ++ (", ").toList ++ natStr size ++ (" bytes)").toList),
                 .image (b64 cont) mimeType],
               isError := false }, tr)
          else
            let uri := pathToResourceURI v
            ({ content :=
                [.text (("Image file is too large to display inline (").toList ++
                  natStr size ++ (" bytes). Access it via resource URI: ").toList ++ uri),
                 .resourceText uri ("text/plain").toList
                   (("Large image: ").toList ++ v ++ (" (").toList ++ mimeType ++
                     (", ").toList ++ natStr size ++ (" bytes)").toList)],
               isError := false }, tr)
        else
          let uri := pathToResourceURI v
          if size ≤ MAX_BASE64_SIZE then
            ({ content :=
                [.text (("Binary file: ").toList ++ v ++ (" (").toList ++
                  mimeType ++ (", ").toList ++ natStr size ++ (" bytes)").toList),
                 .resourceBlob uri mimeType (b64 cont)],
               isError := false }, tr)
          else
            ({ content :=
                [.text (("Binary file: ").toList ++ v ++ (" (").toList ++
                  mimeType ++ (", ").toList ++ natStr size ++
                  (" bytes). Access it via resource URI: ").toList ++ uri),
                 .resourceText uri ("text/plain").toList
                   (("Binary file: ").toList ++ v ++ (" (").toList ++ mimeType ++
                     (", ").toList ++ natStr size ++ (" bytes)").toList)],
               isError := false }, tr)

def handleReadFile (fs : FS) (dirs : List (List Char)) (cwd : List Comp)
    (sniff : List Char → List Char) (b64 : List Char → List Char)
    (path : List Char) : ToolResult :=
  (handleReadFileT fs dirs cwd sniff b64 path).1

/-- Does the envelope carry a text item containing `msg`? -/
def envHasTextContaining (tr : ToolResult) (msg : List Char) : Bool :=
  tr.content.any (fun i =>
    match i with
    | .text s => containsSub s msg
    | _ => false)

/-! ## Concrete fixtures for the sandbox scenarios -/

def pathComps (s : String) : List Comp := strToComps s.toList

/-- Allow-list `["/srv/data"]` as normalized by `NewFilesystemHandler`. -/
def rootsSrv : List (List Char) := [("/srv/data/").toList]

/-- Scenario of §8.1: a sibling directory whose name extends the allowed
root's name, with a file inside. -/
def fsSecret : FS :=
  [(pathComps ("/srv"), .dir),
   (pathComps ("/srv/data"), .dir),
   (pathComps ("/srv/data_secret"), .dir),
   (pathComps ("/srv/data_secret/x"), .file ("secret").toList)]

/-- Scenario of §8.2: a symlink inside the sandbox pointing at
`/etc/passwd`, plus an internal symlink `in → sub` and a file under `sub`. -/
def fsLink : FS :=
  [(pathComps ("/srv"), .dir),
   (pathComps ("/srv/data"), .dir),
   (pathComps ("/etc"), .dir),
   (pathComps ("/etc/passwd"), .file ("root:x:0:0").toList),
   (pathComps ("/srv/data/link"), .symlink ("/etc/passwd").toList),
   (pathComps ("/srv/data/sub"), .dir),
   (pathComps ("/srv/data/in"), .symlink ("sub").toList),
   (pathComps ("/srv/data/sub/f"), .file ("hi").toList)]

def sniffText : List Char → List Char := fun _ => ("text/plain").toList

/-- Witness for C1 at a concrete input that passes through a symlink:
requesting `/srv/data/in/f` (where `in → sub`) validates to
`/srv/data/sub/f`, which is its own canonical form and lies inside the
allowed root. -/
theorem claim_C1_witness :
    (resolveStr fsLink (("/srv/data/sub/f").toList) =
        .ok (strToComps (("/srv/data/sub/f").toList)) ∧
      InAllowed rootsSrv (strToComps (("/srv/data/sub/f").toList)))
    ∨ (resolveStr fsLink (absStr [] (("/srv/data/in/f").toList)) =
        .error RErr.notExist ∧
      ∃ pc, resolveStr fsLink (dirStr (("/srv/data/sub/f").toList)) = .ok pc ∧
        InAllowed rootsSrv pc) :=
  claim_C1_sandbox_confinement fsLink rootsSrv [] (("/srv/data/in/f").toList)
    (("/srv/data/sub/f").toList) (by decide) (by decide)

/-! ## Claim C2: the prefix trap — corrected -/

/-- C2, counterexample.  The denial itself is exactly as claimed (error
envelope with the `access denied` message, produced by the
separator-terminated prefix comparison), but the claim's "no filesystem
access under `/srv/data_secret` is performed" is false: before comparing
prefixes, `isPathInAllowedDirs` issues an `os.Stat` on the requested path
`/srv/data_secret/x` to decide whether to compare the path itself or its
parent directory. -/
theorem claim_C2_counterexample :
    ((handleReadFileT fsSecret rootsSrv [] sniffText id
        (("/srv/data_secret/x").toList)).1.isError = true ∧
      envHasTextContaining
        (handleReadFileT fsSecret rootsSrv [] sniffText id
          (("/srv/data_secret/x").toList)).1
        (("access denied - path outside allowed directories").toList) = true)
    ∧ ¬ (∀ op ∈ (handleReadFileT fsSecret rootsSrv [] sniffText id
          (("/srv/data_secret/x").toList)).2,
        ¬ (("/srv/data_secret").toList.isPrefixOf op.path = true)) := by
  constructor
  · constructor
    · decide
    · decide
  · intro hall
    exact hall (FsOp.statOp (("/srv/data_secret/x").toList)) (by decide)
      (by decide)

/-- C2, amended.  With allow-list `["/srv/data"]`, `read_file` of
`/srv/data_secret/x` returns the error envelope
`access denied - path outside allowed directories` and never reads or opens
any file: the only filesystem access on the requested path is a single
`os.Stat` metadata probe issued by the prefix check before denial.  The
separator-terminated comparison indeed prevents `/srv/data` from matching
`/srv/data_secret` (and `/tmp/foo` from matching `/tmp/foobar`). -/
theorem claim_C2_amended :
    (handleReadFileT fsSecret rootsSrv [] sniffText id
        (("/srv/data_secret/x").toList)).1 =
      errEnvelope (("Error: ").toList ++
        msgOutside (("/srv/data_secret/x").toList))
    ∧ (handleReadFileT fsSecret rootsSrv [] sniffText id
        (("/srv/data_secret/x").toList)).2 =
      [FsOp.statOp (("/srv/data_secret/x").toList)]
    ∧ (∀ op ∈ (handleReadFileT fsSecret rootsSrv [] sniffText id
          (("/srv/data_secret/x").toList)).2,
        ∀ p, op ≠ FsOp.readOp p)
    ∧ ("/srv/data/").toList.isPrefixOf
        (("/srv/data_secret/x").toList ++ ['/']) = false
    ∧ ("/tmp/foo/").toList.isPrefixOf
        (("/tmp/foobar").toList ++ ['/']) = false := by
  refine ⟨by decide, by decide, ?_, by decide, by decide⟩
  intro op hop p
  have htr : (handleReadFileT fsSecret rootsSrv [] sniffText id
      (("/srv/data_secret/x").toList)).2 =
      [FsOp.statOp (("/srv/data_secret/x").toList)] := by decide
  rw [htr] at hop
  rcases List.mem_singleton.1 hop with rfl
  intro h
  cases h

/-! ## Claim C3: the second allow-list check on the resolved path -/

/-- C3.  (i) Whenever symlink resolution of the absolutized request
succeeds, a validated path equals the resolved path and the allow-list check
evaluates to true on it; if that second check is false (while the lexical
first check passed), `validatePath` denies with the symlink message — the
check is never skipped.  (ii) Concretely, with allow-list `["/srv/data"]`
and `link → /etc/passwd` inside it, `read_file` of `/srv/data/link` returns
an error envelope containing
`access denied - symlink target outside allowed directories`. -/
theorem claim_C3_second_check :
    (∀ (fs : FS) (dirs : List (List Char)) (cwd : List Comp)
        (r v : List Char) (rc : List Comp),
      resolveStr fs (absStr cwd r) = .ok rc →
      (validatePath fs dirs cwd r = .ok v →
        v = fromComps rc ∧
        isPathInAllowedDirs fs dirs cwd (fromComps rc) = true)
      ∧ (isPathInAllowedDirs fs dirs cwd (absStr cwd r) = true →
         isPathInAllowedDirs fs dirs cwd (fromComps rc) = false →
         validatePath fs dirs cwd r = .error msgSymlinkOutside))
    ∧ ((handleReadFile fsLink rootsSrv [] sniffText id
          (("/srv/data/link").toList)).isError = true ∧
       envHasTextContaining
         (handleReadFile fsLink rootsSrv [] sniffText id
           (("/srv/data/link").toList))
         (("access denied - symlink target outside allowed directories").toList)
         = true) := by
  constructor
  · intro fs dirs cwd r v rc hres
    constructor
    · intro hok
      rw [validatePath, validatePathT] at hok
      by_cases hc1 : (isPathInAllowedDirsT fs dirs cwd (absStr cwd r)).1
      · rw [if_neg (by simp [hc1]), hres] at hok
        dsimp only at hok
        by_cases hc2 : (isPathInAllowedDirsT fs dirs cwd (fromComps rc)).1
        · rw [if_neg (by simp [hc2])] at hok
          simp only [Except.ok.injEq] at hok
          exact ⟨hok.symm, hc2⟩
        · rw [if_pos (by simpa using hc2)] at hok
          cases hok
      · rw [if_pos (by simpa using hc1)] at hok
        cases hok
    · intro hc1 hc2
      rw [validatePath, validatePathT]
      rw [if_neg (by simp [isPathInAllowedDirs] at hc1; simp [hc1]), hres]
      dsimp only
      rw [if_pos (by simp [isPathInAllowedDirs] at hc2; simp [hc2])]
  · exact ⟨by decide, by decide⟩

/-- Witness for the universally quantified part of C3, instantiated at the
internal symlink `in → sub`: resolution succeeds, validation returns the
resolved path, and the second check evaluates to true on it. -/
theorem claim_C3_witness :
    (("/srv/data/sub/f").toList : List Char) =
        fromComps (pathComps ("/srv/data/sub/f")) ∧
      isPathInAllowedDirs fsLink rootsSrv []
        (fromComps (pathComps ("/srv/data/sub/f"))) = true :=
  (claim_C3_second_check.1 fsLink rootsSrv [] (("/srv/data/in/f").toList)
    (("/srv/data/sub/f").toList) (pathComps ("/srv/data/sub/f"))
    (by decide)).1 (by decide)

/-! ## The editor (`handler_utils.go`: `performIntelligentEdit` and its
helpers).  The Go `strings` scans are embedded with an explicit step budget
(`fuel`), always called with the input length, which every scan strictly
decreases — the budget is never exhausted on a real run. -/

/-- Step-bounded scan of `strings.Count` (non-overlapping occurrences). -/
def cgo (sub : List Char) : Nat → List Char → Nat
  | _, [] => 0
  | 0, _ :: _ => 0
  | fuel + 1, a :: rest =>
    if sub.isPrefixOf (a :: rest) then
      1 + cgo sub fuel ((a :: rest).drop sub.length)
    else cgo sub fuel rest

/-- `strings.Count`: for an empty pattern Go returns rune count + 1. -/
def countOcc (s sub : List Char) : Nat :=
  if sub = [] then s.length + 1 else cgo sub s.length s

/-- Step-bounded scan of `strings.ReplaceAll`. -/
def rgo (sub new : List Char) : Nat → List Char → List Char
  | _, [] => []
  | 0, s => s
  | fuel + 1, a :: rest =>
    if sub.isPrefixOf (a :: rest) then
      new ++ rgo sub new fuel ((a :: rest).drop sub.length)
    else a :: rgo sub new fuel rest

/-- `strings.ReplaceAll`; an empty pattern inserts `new` before every rune
and at the end, as in Go. -/
def replaceAll (s sub new : List Char) : List Char :=
  if sub = [] then new ++ s.flatMap (fun c => c :: new)
  else rgo sub new s.length s

/-- Step-bounded scan of `strings.Replace` with `n = 1`. -/
def rfgo (sub new : List Char) : Nat → List Char → List Char
  | _, [] => []
  | 0, s => s
  | fuel + 1, a :: rest =>
    if sub.isPrefixOf (a :: rest) then new ++ (a :: rest).drop sub.length
    else a :: rfgo sub new fuel rest

/-- `strings.Replace(s, sub, new, 1)`. -/
def replaceFirst (s sub new : List Char) : List Char :=
  if sub = [] then new ++ s else rfgo sub new s.length s

/-- `normalizeLineEndings` (handler_utils.go:292): CRLF, then lone CR,
to LF. -/
def normalizeLineEndings (s : List Char) : List Char :=
  replaceAll (replaceAll s ['\r', '\n'] ['\n']) ['\r'] ['\n']

/-- `strings.Split(s, "\n")`. -/
def splitNl : List Char → List (List Char)
  | [] => [[]]
  | c :: rest =>
    if c = '\n' then [] :: splitNl rest
    else
      match splitNl rest with
      | [] => [[c]]
      | g :: gs => (c :: g) :: gs

/-- `strings.Join(lines, "\n")`. -/
def joinNl : List (List Char) → List Char
  | [] => []
  | [l] => l
  | l :: ls => l ++ '\n' :: joinNl ls

/-- `unicode.IsSpace` on the characters Go recognizes. -/
def isSpaceGo (c : Char) : Bool :=
  c = ' ' ∨ c = '\t' ∨ c = '\n' ∨ c = '\x0b' ∨ c = '\x0c' ∨ c = '\r' ∨
    c = '\x85' ∨ c = '\xA0'

/-- `strings.TrimSpace`. -/
def trimSpace (s : List Char) : List Char :=
  ((s.dropWhile isSpaceGo).reverse.dropWhile isSpaceGo).reverse

/-- `getIndentation` (handler_utils.go:305): the prefix removed by
`strings.TrimLeft(line, " \t")`. -/
def getIndentation (line : List Char) : List Char :=
  let trimmed := line.dropWhile (fun c => c = ' ' ∨ c = '\t')
  line.take (line.length - trimmed.length)

/-- The character class of Go's regexp `\s`: `[\t\n\f\r ]`. -/
def isReSpace (c : Char) : Bool :=
  c = ' ' ∨ c = '\t' ∨ c = '\n' ∨ c = '\x0c' ∨ c = '\r'

def collapseWsGo : Bool → List Char → List Char
  | _, [] => []
  | prevSpace, c :: rest =>
    if isReSpace c then
      if prevSpace then collapseWsGo true rest
      else ' ' :: collapseWsGo true rest
    else c :: collapseWsGo false rest

/-- `normalizeWhitespace` (handler_utils.go:299): the regexp replacement of
every `\s+` run by a single space. -/
def normalizeWhitespace (s : List Char) : List Char := collapseWsGo false s

/-- `strings.Index` as an option (Go returns -1 for no match). -/
def indexOfSub : List Char → List Char → Option Nat
  | s, sub =>
    if sub.isPrefixOf s then some 0
    else
      match s with
      | [] => none
      | _ :: rest => (indexOfSub rest sub).map (· + 1)

/-- `reconstructLine` (handler_utils.go:311): despite its position argument,
the source replaces the first occurrence of the trimmed old text by the
trimmed new text. -/
def reconstructLine (original oldText newText : List Char) : List Char :=
  replaceFirst original (trimSpace oldText) (trimSpace newText)

/-- `findMultilineMatch` (handler_utils.go:317). -/
def findMultilineMatch (content pattern : List Char) : Bool :=
  containsSub pattern ['\n'] && containsSub content pattern

/-- `regexp.QuoteMeta`: a backslash before each regexp special character. -/
def isRegexSpecial (c : Char) : Bool :=
  c ∈ ['\\', '.', '+', '*', '?', '(', ')', '|', '[', ']', '\x7b', '\x7d',
    '^', '$']

def quoteMeta (s : List Char) : List Char :=
  s.flatMap (fun c => if isRegexSpecial c then ['\\', c] else [c])

/-- `makeFlexiblePattern` (handler_utils.go:322).  (The first replacement
looks for an escaped space, which `QuoteMeta` never produces, so only the
newline replacement can fire — embedded verbatim.) -/
def makeFlexiblePattern (escaped : List Char) : List Char :=
  replaceAll (replaceAll escaped ['\\', ' '] (("\\s+").toList)) ['\n']
    (("\\s*\n\\s*").toList)

/-- `countAffectedLines` (handler_utils.go:329): each match is located by a
fresh first-occurrence search in `content`; the lines it spans are marked
and the distinct marks counted. -/
def countAffectedLines (content : List Char) (ms : List (List Char)) :
    Nat :=
  let affected := ms.foldl
    (fun (acc : List Nat) m =>
      match indexOfSub content m with
      | some idx =>
        let lineNum := (content.take idx).count '\n'
        let matchLines := m.count '\n' + 1
        acc ++ (List.range matchLines).map (fun i => lineNum + i)
      | none => acc) []
  affected.dedup.length

/-- `EditResult` (types.go). -/
structure EditResult where
  ModifiedContent : List Char
  ReplacementCount : Nat
  MatchConfidence : List Char
  LinesAffected : Nat
  deriving DecidableEq, Repr

/-- The Go signature is `(*EditResult, error)`; the three observable shapes
are: a successful result with a nil error, a nil result with the
`old_text cannot be empty` error, and a no-match result (confidence `none`)
paired with the `no matches found` error. -/
inductive EditOut where
  | ok (r : EditResult)
  | errEmpty
  | errNoMatch (r : EditResult)
  deriving DecidableEq, Repr

def EditOut.isOk : EditOut → Bool
  | .ok _ => true
  | _ => false

/-- The fold step of the per-line pass of `performIntelligentEdit`
(handler_utils.go:186-236), accumulating the rebuilt lines, the replacement
count and the affected-line count. -/
def editLineStep (oldText newText normalizedOld : List Char)
    (acc : List (List Char) × Nat × Nat) (line : List Char) :
    List (List Char) × Nat × Nat :=
  let newLines := acc.1
  let reps := acc.2.1
  let aff := acc.2.2
  let trimmedLine := trimSpace line
  if trimmedLine = normalizedOld then
    (newLines ++ [getIndentation line ++ trimSpace newText], reps + 1, aff + 1)
  else if containsSub line oldText then
    (newLines ++ [replaceAll line oldText newText],
      reps + countOcc line oldText, aff + 1)
  else if containsSub line normalizedOld then
    (newLines ++ [replaceAll line normalizedOld newText],
      reps + countOcc line normalizedOld, aff + 1)
  else if containsSub (normalizeWhitespace line) (normalizeWhitespace oldText)
    then (newLines ++ [reconstructLine line oldText newText],
      reps + 1, aff + 1)
  else (newLines ++ [line], reps, aff)

/-- `performIntelligentEdit` (handler_utils.go:141).  `flex` is the stdlib
`regexp` engine applied to the flexible pattern: given the pattern source,
the content and the replacement template it returns `FindAllString`'s
matches and `ReplaceAllString`'s output, or `none` when compilation fails;
an empty match list takes the same fall-through as a failed compile. -/
def performIntelligentEdit (content oldText newText : List Char)
    (flex : List Char → List Char → List Char →
      Option (List (List Char) × List Char)) : EditOut :=
  if oldText = [] then .errEmpty
  else
    let content := normalizeLineEndings content
    let oldText := normalizeLineEndings oldText
    let newText := normalizeLineEndings newText
    let exactMatches := countOcc content oldText
    if 0 < exactMatches then
      let linesAffected :=
        (splitNl content).countP (fun line => containsSub line oldText)
      .ok ⟨replaceAll content oldText newText, exactMatches,
        ("high").toList, linesAffected⟩
    else
      let normalizedOld := trimSpace oldText
      let folded := (splitNl content).foldl
        (editLineStep oldText newText normalizedOld) ([], 0, 0)
      let newLines := folded.1
      let replacements := folded.2.1
      let linesAffected := folded.2.2
      if replacements = 0 then
        if findMultilineMatch content oldText then
          .ok ⟨replaceAll content oldText newText, 1, ("medium").toList,
            countOcc oldText ['\n'] + 1⟩
        else
          match flex (makeFlexiblePattern (quoteMeta oldText)) content
              newText with
          | some (ms, nc) =>
            if 0 < ms.length then
              .ok ⟨nc, ms.length, ("low").toList,
                countAffectedLines content ms⟩
            else .errNoMatch ⟨content, 0, ("none").toList, 0⟩
          | none => .errNoMatch ⟨content, 0, ("none").toList, 0⟩
      else
        .ok ⟨joinNl newLines, replacements, ("medium").toList, linesAffected⟩

def flexNone : List Char → List Char → List Char →
    Option (List (List Char) × List Char) := fun _ _ _ => none

theorem cgo_pos_iff (sub : List Char) (hsub : sub ≠ []) :
    ∀ (fuel : Nat) (s : List Char), s.length ≤ fuel →
      (0 < cgo sub fuel s ↔ containsSub s sub = true) := by
  intro fuel
  induction fuel with
  | zero =>
    intro s hs
    have : s = [] := List.eq_nil_of_length_eq_zero (Nat.le_zero.1 hs)
    subst this
    simp only [cgo, containsSub]
    constructor
    · intro h; exact absurd h (by simp)
    · intro h
      match sub, hsub with
      | a :: sub', _ => simp [List.isPrefixOf] at h
  | succ fuel ih =>
    intro s hs
    match s with
    | [] =>
      simp only [cgo, containsSub]
      constructor
      · intro h; exact absurd h (by simp)
      · intro h
        match sub, hsub with
        | a :: sub', _ => simp [List.isPrefixOf] at h
    | a :: rest =>
      rw [cgo]
      by_cases hp : sub.isPrefixOf (a :: rest)
      · rw [if_pos hp]
        constructor
        · intro _
          rw [containsSub, hp]
          rfl
        · intro _; omega
      · rw [if_neg hp]
        have hlen : rest.length ≤ fuel := Nat.le_of_succ_le_succ hs
        rw [ih rest hlen]
        rw [containsSub]
        simp [hp]

theorem countOcc_pos_iff (s sub : List Char) (hsub : sub ≠ []) :
    (0 < countOcc s sub ↔ containsSub s sub = true) := by
  rw [countOcc, if_neg hsub]
  exact cgo_pos_iff sub hsub s.length s le_rfl

theorem rgo_id_of_zero (sub new : List Char) :
    ∀ (fuel : Nat) (s : List Char), cgo sub fuel s = 0 →
      rgo sub new fuel s = s := by
  intro fuel
  induction fuel with
  | zero =>
    intro s _
    match s with
    | [] => rfl
    | a :: rest => rfl
  | succ fuel ih =>
    intro s hz
    match s with
    | [] => rfl
    | a :: rest =>
      rw [cgo] at hz
      rw [rgo]
      by_cases hp : sub.isPrefixOf (a :: rest)
      · rw [if_pos hp] at hz
        omega
      · rw [if_neg hp] at hz
        rw [if_neg hp, ih rest hz]

theorem replaceAll_id_of_zero (s sub new : List Char) (hsub : sub ≠ [])
    (h : countOcc s sub = 0) : replaceAll s sub new = s := by
  rw [countOcc, if_neg hsub] at h
  rw [replaceAll, if_neg hsub]
  exact rgo_id_of_zero sub new s.length s h

theorem rgo_ne_nil (sub new : List Char) (hnew : new ≠ []) :
    ∀ (fuel : Nat) (s : List Char), s ≠ [] → rgo sub new fuel s ≠ [] := by
  intro fuel
  induction fuel with
  | zero =>
    intro s hs
    match s, hs with
    | a :: rest, _ => simp [rgo]
  | succ fuel ih =>
    intro s hs
    match s, hs with
    | a :: rest, _ =>
      rw [rgo]
      by_cases hp : sub.isPrefixOf (a :: rest)
      · rw [if_pos hp]
        simp [hnew]
      · rw [if_neg hp]
        simp

theorem replaceAll_ne_nil (s sub new : List Char) (hnew : new ≠ [])
    (hs : s ≠ []) : replaceAll s sub new ≠ [] := by
  rw [replaceAll]
  by_cases h0 : sub = []
  · rw [if_pos h0]
    simp [hnew]
  · rw [if_neg h0]
    exact rgo_ne_nil sub new hnew s.length s hs

theorem normalizeLineEndings_ne_nil (s : List Char) (hs : s ≠ []) :
    normalizeLineEndings s ≠ [] := by
  rw [normalizeLineEndings]
  exact replaceAll_ne_nil _ _ _ (by simp)
    (replaceAll_ne_nil _ _ _ (by simp) hs)

/-- The exact-substring tier of `performIntelligentEdit`, as an equation. -/
theorem exact_tier_spec (c o n : List Char)
    (flex : List Char → List Char → List Char →
      Option (List (List Char) × List Char))
    (ho : o ≠ [])
    (hocc : containsSub (normalizeLineEndings c) (normalizeLineEndings o)
      = true) :
    performIntelligentEdit c o n flex =
      .ok ⟨replaceAll (normalizeLineEndings c) (normalizeLineEndings o)
          (normalizeLineEndings n),
        countOcc (normalizeLineEndings c) (normalizeLineEndings o),
        ("high").toList,
        (splitNl (normalizeLineEndings c)).countP
          (fun line => containsSub line (normalizeLineEndings o))⟩ := by
  have ho' : normalizeLineEndings o ≠ [] := normalizeLineEndings_ne_nil o ho
  have hpos : 0 < countOcc (normalizeLineEndings c) (normalizeLineEndings o) :=
    (countOcc_pos_iff _ _ ho').2 hocc
  rw [performIntelligentEdit, if_neg ho]
  simp only []
  rw [if_pos hpos]

theorem empty_old_rejected (c n : List Char)
    (flex : List Char → List Char → List Char →
      Option (List (List Char) × List Char)) :
    performIntelligentEdit c [] n flex = .errEmpty := by
  rw [performIntelligentEdit, if_pos rfl]

/-! ## Claim C4: the exact-substring tier -/

/-- C4.  When `old_text` is nonempty and, after normalizing line endings,
occurs literally in the content, the editor replaces all (non-overlapping)
occurrences, reports their count (`strings.Count`) with confidence `high`,
and reports as `lines_affected` the number of lines of the normalized
content containing an occurrence; an empty `old_text` is rejected
unconditionally. -/
theorem claim_C4_exact_tier :
    (∀ (c o n : List Char)
        (flex : List Char → List Char → List Char →
          Option (List (List Char) × List Char)),
      o ≠ [] →
      containsSub (normalizeLineEndings c) (normalizeLineEndings o) = true →
      performIntelligentEdit c o n flex =
        .ok ⟨replaceAll (normalizeLineEndings c) (normalizeLineEndings o)
            (normalizeLineEndings n),
          countOcc (normalizeLineEndings c) (normalizeLineEndings o),
          ("high").toList,
          (splitNl (normalizeLineEndings c)).countP
            (fun line => containsSub line (normalizeLineEndings o))⟩)
    ∧ (∀ (c n : List Char)
        (flex : List Char → List Char → List Char →
          Option (List (List Char) × List Char)),
      performIntelligentEdit c [] n flex = .errEmpty) := by
  exact ⟨fun c o n flex ho hocc => exact_tier_spec c o n flex ho hocc,
    fun c n flex => empty_old_rejected c n flex⟩

/-- Witness for C4 at the repository's own test vector (`file_edit_test.go`,
case "exact match", shortened). -/
theorem claim_C4_witness :
    performIntelligentEdit
        (("This is line 1\nThis is line 2\nLast line").toList)
        (("line 2").toList) (("LINE TWO").toList) flexNone =
      .ok ⟨replaceAll
          (normalizeLineEndings (("This is line 1\nThis is line 2\nLast line").toList))
          (normalizeLineEndings (("line 2").toList))
          (normalizeLineEndings (("LINE TWO").toList)),
        countOcc
          (normalizeLineEndings (("This is line 1\nThis is line 2\nLast line").toList))
          (normalizeLineEndings (("line 2").toList)),
        ("high").toList,
        (splitNl (normalizeLineEndings
            (("This is line 1\nThis is line 2\nLast line").toList))).countP
          (fun line => containsSub line
            (normalizeLineEndings (("line 2").toList)))⟩
    ∧ performIntelligentEdit (("x").toList) [] (("y").toList) flexNone =
        .errEmpty :=
  ⟨claim_C4_exact_tier.1 (("This is line 1\nThis is line 2\nLast line").toList)
      (("line 2").toList) (("LINE TWO").toList) flexNone (by decide) (by decide),
    claim_C4_exact_tier.2 (("x").toList) (("y").toList) flexNone⟩

/-! ## Claim C5: exact-tier idempotence — corrected -/

/-- C5, counterexample.  With `c = "aab"`, `o = "ab"`, `n = "b"` the side
conditions of the claim hold (`o ≠ n`, `o` not a substring of `n`), both
applications run the exact tier, yet the second application changes the
content again: replacing `"ab"` by `"b"` in `"aab"` yields `"ab"`, in which
`"ab"` occurs anew. -/
theorem claim_C5_counterexample :
    (("ab").toList ≠ (("b").toList : List Char))
    ∧ containsSub (("b").toList) (("ab").toList) = false
    ∧ performIntelligentEdit (("aab").toList) (("ab").toList) (("b").toList)
        flexNone = .ok ⟨("ab").toList, 1, ("high").toList, 1⟩
    ∧ performIntelligentEdit (("ab").toList) (("ab").toList) (("b").toList)
        flexNone = .ok ⟨("b").toList, 1, ("high").toList, 1⟩
    ∧ (("ab").toList : List Char) ≠ ("b").toList := by
  refine ⟨by decide, by decide, by decide, by decide, by decide⟩

/-- C5, amended.  Exact-tier idempotence needs a stronger hypothesis than
`o ∉ n`: if `o` (normalized) no longer occurs in the once-replaced content,
then the first application succeeds on the exact tier and a second exact
replacement pass leaves its output unchanged.  (With only `o ≠ n` and `o` not
a substring of `n`, a replacement boundary can recreate `o`, and a second
application changes the content again.) -/
theorem claim_C5_amended (c o n : List Char)
    (flex : List Char → List Char → List Char →
      Option (List (List Char) × List Char))
    (ho : o ≠ [])
    (hocc : containsSub (normalizeLineEndings c) (normalizeLineEndings o)
      = true)
    (hstable : countOcc
        (replaceAll (normalizeLineEndings c) (normalizeLineEndings o)
          (normalizeLineEndings n))
        (normalizeLineEndings o) = 0) :
    ∃ r, performIntelligentEdit c o n flex = .ok r ∧
      r.ModifiedContent = replaceAll (normalizeLineEndings c)
        (normalizeLineEndings o) (normalizeLineEndings n) ∧
      replaceAll r.ModifiedContent (normalizeLineEndings o)
        (normalizeLineEndings n) = r.ModifiedContent := by
  refine ⟨_, exact_tier_spec c o n flex ho hocc, rfl, ?_⟩
  exact replaceAll_id_of_zero _ _ _ (normalizeLineEndings_ne_nil o ho) hstable

/-- Witness for the amended C5: replacing `"b"` by `"c"` in `"ab"` gives
`"ac"`, where `"b"` no longer occurs; a second pass is the identity. -/
theorem claim_C5_amended_witness :
    ∃ r, performIntelligentEdit (("ab").toList) (("b").toList) (("c").toList)
        flexNone = .ok r ∧
      r.ModifiedContent = replaceAll
        (normalizeLineEndings (("ab").toList))
        (normalizeLineEndings (("b").toList))
        (normalizeLineEndings (("c").toList)) ∧
      replaceAll r.ModifiedContent (normalizeLineEndings (("b").toList))
        (normalizeLineEndings (("c").toList)) = r.ModifiedContent :=
  claim_C5_amended (("ab").toList) (("b").toList) (("c").toList) flexNone
    (by decide) (by decide) (by decide)

/-! ## Claim C7: the read envelope and its size thresholds -/

/-- C7.  A `read_file` of a validated, existing regular file returns a
non-error envelope of exactly one of four shapes: inline text (only when the
size is at most MAX_INLINE_SIZE — the branch is only reachable under that
bound), inline image (only when size ≤ MAX_BASE64_SIZE), inline base64 blob
(only when size ≤ MAX_BASE64_SIZE), or a `file://` resource reference; above
MAX_INLINE_SIZE no file bytes are inlined (the resource-reference shape
carries only descriptive text). -/
theorem claim_C7_read_envelope (fs : FS) (dirs : List (List Char))
    (cwd : List Comp) (sniff b64 : List Char → List Char)
    (path v cont : List Char)
    (hval : (validatePathT fs dirs cwd
        (if path = ['.'] ∨ path = ['.', '/'] then fromComps cwd else path)).1
      = .ok v)
    (hstat : statStr fs v = some (.file cont)) :
    (handleReadFile fs dirs cwd sniff b64 path).isError = false ∧
    ((handleReadFile fs dirs cwd sniff b64 path).content = [CItem.text cont] ∧
        cont.length ≤ MAX_INLINE_SIZE
     ∨ (∃ d, (handleReadFile fs dirs cwd sniff b64 path).content =
          [CItem.text d, CItem.image (b64 cont) (sniff cont)] ∧
          cont.length ≤ MAX_BASE64_SIZE)
     ∨ (∃ d u, (handleReadFile fs dirs cwd sniff b64 path).content =
          [CItem.text d, CItem.resourceBlob u (sniff cont) (b64 cont)] ∧
          cont.length ≤ MAX_BASE64_SIZE)
     ∨ (∃ d u m t, (handleReadFile fs dirs cwd sniff b64 path).content =
          [CItem.text d, CItem.resourceText u m t])) := by
  have hpr : validatePathT fs dirs cwd
      (if path = ['.'] ∨ path = ['.', '/'] then fromComps cwd else path) =
      (.ok v, (validatePathT fs dirs cwd
        (if path = ['.'] ∨ path = ['.', '/'] then fromComps cwd else path)).2) := by
    rw [← hval]
  rw [handleReadFile, handleReadFileT, hpr]
  dsimp only
  rw [hstat]
  dsimp only
  by_cases hbig : cont.length > MAX_INLINE_SIZE
  · rw [if_pos hbig]
    exact ⟨rfl, Or.inr (Or.inr (Or.inr ⟨_, _, _, _, rfl⟩))⟩
  · rw [if_neg hbig]
    by_cases htxt : isTextFile (sniff cont)
    · rw [if_pos htxt]
      exact ⟨rfl, Or.inl ⟨rfl, by omega⟩⟩
    · rw [if_neg htxt]
      by_cases himg : isImageFile (sniff cont)
      · rw [if_pos himg]
        by_cases hb : cont.length ≤ MAX_BASE64_SIZE
        · rw [if_pos hb]
          exact ⟨rfl, Or.inr (Or.inl ⟨_, rfl, hb⟩)⟩
        · rw [if_neg hb]
          exact ⟨rfl, Or.inr (Or.inr (Or.inr ⟨_, _, _, _, rfl⟩))⟩
      · rw [if_neg himg]
        by_cases hb : cont.length ≤ MAX_BASE64_SIZE
        · rw [if_pos hb]
          exact ⟨rfl, Or.inr (Or.inr (Or.inl ⟨_, _, rfl, hb⟩))⟩
        · rw [if_neg hb]
          exact ⟨rfl, Or.inr (Or.inr (Or.inr ⟨_, _, _, _, rfl⟩))⟩

/-- Witness for C7: reading the text file `/srv/data/sub/f` of `fsLink`
yields a non-error envelope of one of the four shapes. -/
theorem claim_C7_witness :
    (handleReadFile fsLink rootsSrv [] sniffText id
        (("/srv/data/sub/f").toList)).isError = false ∧
    ((handleReadFile fsLink rootsSrv [] sniffText id
        (("/srv/data/sub/f").toList)).content =
          [CItem.text (("hi").toList)] ∧
        (("hi").toList : List Char).length ≤ MAX_INLINE_SIZE
     ∨ (∃ d, (handleReadFile fsLink rootsSrv [] sniffText id
          (("/srv/data/sub/f").toList)).content =
          [CItem.text d, CItem.image (id (("hi").toList))
            (sniffText (("hi").toList))] ∧
          (("hi").toList : List Char).length ≤ MAX_BASE64_SIZE)
     ∨ (∃ d u, (handleReadFile fsLink rootsSrv [] sniffText id
          (("/srv/data/sub/f").toList)).content =
          [CItem.text d, CItem.resourceBlob u (sniffText (("hi").toList))
            (id (("hi").toList))] ∧
          (("hi").toList : List Char).length ≤ MAX_BASE64_SIZE)
     ∨ (∃ d u m t, (handleReadFile fsLink rootsSrv [] sniffText id
          (("/srv/data/sub/f").toList)).content =
          [CItem.text d, CItem.resourceText u m t])) :=
  claim_C7_read_envelope fsLink rootsSrv [] sniffText id
    (("/srv/data/sub/f").toList) (("/srv/data/sub/f").toList)
    (("hi").toList) (by decide) (by decide)


/-! ## Mutation of the filesystem (the write-side syscalls), with a failure
oracle for `os.WriteFile` and `os.Rename` -/

/-- Insert or overwrite the node at a canonical key. -/
def FS.set (fs : FS) (p : List Comp) (n : FNode) : FS :=
  match fs with
  | [] => [(p, n)]
  | e :: rest => if e.1 = p then (p, n) :: rest else e :: FS.set rest p n

/-- Delete the entry at a canonical key (`os.Remove`; the handlers ignore
its error, so it is modelled as unconditional). -/
def FS.del (fs : FS) (p : List Comp) : FS :=
  fs.filter (fun e => ¬ e.1 = p)

theorem findC_set_self (fs : FS) (p : List Comp) (n : FNode) (hp : p ≠ []) :
    (fs.set p n).findC p = some n := by
  rw [FS.findC, if_neg hp]
  induction fs with
  | nil => simp [FS.set, lookupFS]
  | cons e rest ih =>
    rw [FS.set]
    by_cases he : e.1 = p
    · rw [if_pos he, lookupFS, if_pos rfl]
    · rw [if_neg he, lookupFS, if_neg he]
      exact ih

theorem findC_set_other (fs : FS) (p q : List Comp) (n : FNode)
    (hq : q ≠ p) : (fs.set p n).findC q = fs.findC q := by
  by_cases hqe : q = []
  · subst hqe; simp [FS.findC]
  · rw [FS.findC, if_neg hqe, FS.findC, if_neg hqe]
    induction fs with
    | nil =>
      show (if p = q then some n else (none : Option FNode)) = none
      rw [if_neg (fun h => hq h.symm)]
    | cons e rest ih =>
      rw [FS.set]
      by_cases he : e.1 = p
      · rw [if_pos he, lookupFS, if_neg (fun h => hq h.symm), lookupFS,
          if_neg (fun h => hq (he.symm.trans h).symm)]
      · rw [if_neg he, lookupFS, lookupFS]
        by_cases heq : e.1 = q
        · rw [if_pos heq, if_pos heq]
        · rw [if_neg heq, if_neg heq]
          exact ih

theorem findC_del_self (fs : FS) (p : List Comp) (hp : p ≠ []) :
    (fs.del p).findC p = none := by
  rw [FS.findC, if_neg hp]
  induction fs with
  | nil => rfl
  | cons e rest ih =>
    rw [FS.del, List.filter_cons]
    by_cases he : e.1 = p
    · rw [if_neg (by simp [he])]
      exact ih
    · rw [if_pos (by simp [he]), lookupFS, if_neg he]
      exact ih

theorem findC_del_other (fs : FS) (p q : List Comp) (hq : q ≠ p) :
    (fs.del p).findC q = fs.findC q := by
  by_cases hqe : q = []
  · subst hqe; simp [FS.findC]
  · rw [FS.findC, if_neg hqe, FS.findC, if_neg hqe]
    induction fs with
    | nil => rfl
    | cons e rest ih =>
      rw [FS.del, List.filter_cons]
      by_cases he : e.1 = p
      · rw [if_neg (by simp [he]), lookupFS,
          if_neg (fun h => hq (he.symm.trans h).symm)]
        exact ih
      · rw [if_pos (by simp [he]), lookupFS, lookupFS]
        by_cases heq : e.1 = q
        · rw [if_pos heq, if_pos heq]
        · rw [if_neg heq, if_neg heq]
          exact ih

/-- Canonicity of a suffix only depends on the map at the visited keys. -/
theorem canonSuffix_stable (fs fs' : FS) (l : List Comp) :
    ∀ base,
      (∀ k, k <+: l → k ≠ [] → fs'.findC (base ++ k) = fs.findC (base ++ k)) →
      CanonSuffix fs base l → CanonSuffix fs' base l := by
  match l with
  | [] => intro base _ _; trivial
  | [c] =>
    intro base hagree h
    obtain ⟨hg, n, hn, hsym⟩ := h
    refine ⟨hg, n, ?_, hsym⟩
    rw [hagree [c] (List.prefix_refl _) (by simp)]
    exact hn
  | c :: d :: rest =>
    intro base hagree h
    obtain ⟨hg, hd, hsuf⟩ := h
    refine ⟨hg, ?_, ?_⟩
    · rw [hagree [c] (⟨d :: rest, rfl⟩) (by simp)]
      exact hd
    · refine canonSuffix_stable fs fs' (d :: rest) (base ++ [c]) ?_ hsuf
      intro k hk hkne
      have hag := hagree (c :: k)
        (List.cons_prefix_cons.2 ⟨rfl, hk⟩) (by simp)
      have heq : (base ++ [c]) ++ k = base ++ c :: k := by
        rw [List.append_assoc]
        rfl
      rw [heq]
      exact hag

/-- Resolving the string form of a canonical path succeeds in place (the
second half of `resolveStr_idem`, reusable for modified filesystems). -/
theorem resolveStr_fromComps_of_canon (fs : FS) (vc : List Comp)
    (hcanon : CanonSuffix fs [] vc) :
    resolveStr fs (fromComps vc) = .ok vc := by
  have hgood := canonSuffix_goodNames fs vc [] hcanon
  by_cases hne : vc = []
  · subst hne
    simp [resolveStr, resolveFuel, walkComps, parts, splitSep, fromComps]
  · rw [resolveStr, parts_fromComps vc hgood hne, resolveFuel]
    have hwalk : walkComps fs [] ([] :: vc) = .fin (.ok vc) := by
      rw [walkComps, if_pos (Or.inl rfl)]
      simpa using walk_of_canon fs vc [] hcanon
    rw [hwalk]

/-- The components of a path whose final component is extended in place by
a suffix (`v + ".backup"`, `v + ".tmp"`, ...). -/
def extComps (vc : List Comp) (s : List Char) : List Comp :=
  match vc with
  | [] => [s]
  | [c] => [c ++ s]
  | c :: rest => c :: extComps rest s

theorem extComps_ne_nil (vc : List Comp) (s : List Char) :
    extComps vc s ≠ [] := by
  match vc with
  | [] => simp [extComps]
  | [c] => simp [extComps]
  | c :: d :: rest => simp [extComps]

theorem extComps_not_prefix (vc : List Comp) (s : List Char) (hs : s ≠ []) :
    ∀ k, k <+: vc → k ≠ extComps vc s := by
  match vc with
  | [] =>
    intro k hk heq
    rw [List.prefix_nil.1 hk] at heq
    exact extComps_ne_nil [] s heq.symm
  | [c] =>
    intro k hk heq
    rcases hk with ⟨t, ht⟩
    match k, t, ht with
    | [], _, _ => exact extComps_ne_nil [c] s heq.symm
    | [k1], [], ht =>
      have hk1 : k1 = c := by simpa using congrArg (fun l => l.head?) ht
      rw [extComps, hk1] at heq
      have : c = c ++ s := by simpa using heq
      have hl := congrArg List.length this
      simp at hl
      exact hs hl
  | c :: d :: rest =>
    intro k hk heq
    match k with
    | [] => exact extComps_ne_nil (c :: d :: rest) s heq.symm
    | k1 :: k' =>
      obtain ⟨h1, hk'⟩ := List.cons_prefix_cons.1 hk
      rw [show extComps (c :: d :: rest) s = c :: extComps (d :: rest) s
        from rfl] at heq
      have h2 := (List.cons.injEq _ _ _ _ ▸ heq).2
      exact extComps_not_prefix (d :: rest) s hs k' hk' h2

theorem extComps_inj_suffix (vc : List Comp) (s₁ s₂ : List Char)
    (hne : s₁ ≠ s₂) : extComps vc s₁ ≠ extComps vc s₂ := by
  match vc with
  | [] =>
    intro h
    exact hne (by simpa [extComps] using h)
  | [c] =>
    intro h
    rw [extComps, extComps] at h
    have : c ++ s₁ = c ++ s₂ := by simpa using h
    exact hne (List.append_cancel_left this)
  | c :: d :: rest =>
    intro h
    rw [show extComps (c :: d :: rest) s₁ = c :: extComps (d :: rest) s₁
      from rfl, show extComps (c :: d :: rest) s₂ =
        c :: extComps (d :: rest) s₂ from rfl] at h
    exact extComps_inj_suffix (d :: rest) s₁ s₂ hne
      (List.cons.injEq _ _ _ _ ▸ h).2

theorem goodNames_extComps (vc : List Comp) (hg : goodNames vc)
    (hne : vc ≠ []) (s : List Char) (hs : s ≠ []) (hsl : '/' ∉ s) :
    goodNames (extComps vc s) := by
  match vc with
  | [c] =>
    intro x hx
    rcases List.mem_singleton.1 (by simpa [extComps] using hx) with rfl
    have hcg : goodName c := goodNames_head hg
    refine ⟨by simp [hcg.1], ?_, ?_, ?_⟩
    · intro h
      have hlen := congrArg List.length h
      have h1 : 1 ≤ c.length := List.length_pos.2 hcg.1
      have h2 : 1 ≤ s.length := List.length_pos.2 hs
      simp at hlen
      omega
    · intro h
      have hlen := congrArg List.length h
      have h1 : 1 ≤ c.length := List.length_pos.2 hcg.1
      have h2 : 1 ≤ s.length := List.length_pos.2 hs
      simp at hlen
      have hl1 : c.length = 1 := by omega
      obtain ⟨a, rfl⟩ := List.length_eq_one.1 hl1
      have ha : a = '.' := by
        simpa using congrArg (fun l => l.head?) h
      exact hcg.2.1 (by rw [ha])
    · intro hm
      rcases List.mem_append.1 hm with hm' | hm'
      · exact goodName_noSlash hcg hm'
      · exact hsl hm'
  | c :: d :: rest =>
    intro x hx
    rw [show extComps (c :: d :: rest) s = c :: extComps (d :: rest) s
      from rfl] at hx
    rcases List.mem_cons.1 hx with rfl | hx'
    · exact goodNames_head hg
    · exact goodNames_extComps (d :: rest) (goodNames_tail hg) (by simp)
        s hs hsl x hx'

/-- Splitting the string form of a canonical path extended by a
separator-free suffix: the final part is extended in place. -/
theorem parts_sepJoin_ext (vc : List Comp) (hg : goodNames vc) (hne : vc ≠ [])
    (s : List Char) (hs : s ≠ []) (hsl : '/' ∉ s) :
    parts (sepJoin vc ++ s) = [] :: extComps vc s := by
  match vc with
  | [c] =>
    have hcg : goodName c := goodNames_head hg
    rw [show sepJoin [c] ++ s = '/' :: (c ++ s) from by simp [sepJoin]]
    rw [show parts ('/' :: (c ++ s)) = [] :: splitSep (c ++ s) from by
      simp [parts, splitSep]]
    rw [splitSep_noSep (c ++ s) (by
      intro hm
      rcases List.mem_append.1 hm with hm' | hm'
      · exact goodName_noSlash hcg hm'
      · exact hsl hm')]
    rfl
  | c :: d :: rest =>
    have hcg : goodName c := goodNames_head hg
    have ih := parts_sepJoin_ext (d :: rest) (goodNames_tail hg) (by simp)
      s hs hsl
    rw [show sepJoin (c :: d :: rest) ++ s =
        '/' :: (c ++ (sepJoin (d :: rest) ++ s)) from by
      simp [sepJoin]]
    rw [show parts ('/' :: (c ++ (sepJoin (d :: rest) ++ s))) =
        [] :: splitSep (c ++ (sepJoin (d :: rest) ++ s)) from by
      simp [parts, splitSep]]
    rw [splitSep_append_noSep c (sepJoin (d :: rest) ++ s)
      (goodName_noSlash hcg) [] (extComps (d :: rest) s) ih]
    rw [show extComps (c :: d :: rest) s = c :: extComps (d :: rest) s
      from rfl]
    simp

/-- The clean components of a validated path's string extended by a
separator-free suffix. -/
theorem strToComps_ext (vc : List Comp) (hg : goodNames vc) (hne : vc ≠ [])
    (s : List Char) (hs : s ≠ []) (hsl : '/' ∉ s) :
    strToComps (fromComps vc ++ s) = extComps vc s := by
  rw [fromComps, if_neg hne, strToComps, parts_sepJoin_ext vc hg hne s hs hsl,
    cleanComps, if_pos (Or.inl rfl),
    cleanComps_app _ [] (goodNames_extComps vc hg hne s hs hsl)]
  simp

/-- Inversion of a successful validation of an existing path: the validated
path is the string form of its own canonical components. -/
theorem validatePath_ok_exists_canon (fs : FS) (dirs : List (List Char))
    (cwd : List Comp) (path v : List Char) (n : FNode)
    (hv : validatePath fs dirs cwd path = .ok v)
    (hstat : statStr fs v = some n) :
    v = fromComps (strToComps v) ∧ CanonSuffix fs [] (strToComps v) ∧
      resolveStr fs v = .ok (strToComps v) := by
  rw [validatePath, validatePathT] at hv
  by_cases hc1 : (isPathInAllowedDirsT fs dirs cwd (absStr cwd path)).1
  · rw [if_neg (by simp [hc1])] at hv
    rcases hres : resolveStr fs (absStr cwd path) with e | rc
    · rw [hres] at hv
      cases e with
      | notExist =>
        dsimp only at hv
        rcases hpar : resolveStr fs (dirStr (absStr cwd path)) with e' | pc
        · rw [hpar] at hv
          dsimp only at hv
          cases hv
        · rw [hpar] at hv
          dsimp only at hv
          by_cases hc3 : (isPathInAllowedDirsT fs dirs cwd (fromComps pc)).1
          · rw [if_neg (by simp [hc3])] at hv
            simp only [Except.ok.injEq] at hv
            subst hv
            exfalso
            rw [statStr] at hstat
            rw [hres] at hstat
            cases hstat
          · rw [if_pos (by simpa using hc3)] at hv
            cases hv
      | notDir => dsimp only at hv; cases hv
      | tooManyLinks => dsimp only at hv; cases hv
    · rw [hres] at hv
      dsimp only at hv
      by_cases hc2 : (isPathInAllowedDirsT fs dirs cwd (fromComps rc)).1
      · rw [if_neg (by simp [hc2])] at hv
        simp only [Except.ok.injEq] at hv
        subst hv
        have hcanon := resolveStr_ok_canon fs _ rc hres
        have hgood := canonSuffix_goodNames fs rc [] hcanon
        rw [strToComps_fromComps rc hgood]
        exact ⟨rfl, hcanon, resolveStr_idem fs _ rc hres⟩
      · rw [if_pos (by simpa using hc2)] at hv
        cases hv
  · rw [if_pos (by simpa using hc1)] at hv
    cases hv

/-! ## The fallible write-side syscalls -/

/-- Outcome oracle for one `os.WriteFile` call: success, failure before
creating/truncating (state unchanged), or failure midway (the target holds
the partial `leftover` bytes). -/
inductive WriteRes where
  | ok
  | failKeep
  | failLeave (leftover : List Char)
  deriving DecidableEq, Repr

/-- `os.WriteFile`.  Content syscalls are issued by the handlers only on
ValidatedPaths (and their `.backup` and `.tmp` siblings); they are keyed by
the clean lexical form of the path, which for an existing validated path is
its own symlink resolution (`resolveStr_idem`). -/
def writeFileOp (fs : FS) (wo : List Char → List Char → WriteRes)
    (p cont : List Char) : Bool × FS :=
  match wo p cont with
  | .ok => (true, fs.set (strToComps p) (.file cont))
  | .failKeep => (false, fs)
  | .failLeave l => (false, fs.set (strToComps p) (.file l))

/-- `os.Remove`; the handlers ignore its error (deferred cleanup). -/
def removeOp (fs : FS) (p : List Char) : FS := fs.del (strToComps p)

/-- `os.Rename`, atomic: on success the node moves from `src` to `dst` as
one observable change; on failure nothing changes. -/
def renameOp (fs : FS) (ro : List Char → List Char → Bool)
    (src dst : List Char) : Bool × FS :=
  if ro src dst then
    match fs.findC (strToComps src) with
    | some n => (true, (fs.del (strToComps src)).set (strToComps dst) n)
    | none => (false, fs)
  else (false, fs)

/-- `strconv`-style quoting used by `%q` in the no-match error (escapes for
the characters that occur in this development). -/
def goQuoteChar (c : Char) : List Char :=
  if c = '"' then ['\\', '"']
  else if c = '\\' then ['\\', '\\']
  else if c = '\n' then ['\\', 'n']
  else if c = '\r' then ['\\', 'r']
  else if c = '\t' then ['\\', 't']
  else [c]

def goQuote (s : List Char) : List Char :=
  '"' :: (s.flatMap goQuoteChar ++ ['"'])

/-- `handleEditFile` (handler.go:4783; the earlier copy at handler.go:1498
is line-for-line the same flow): validate; require an editable regular file;
create the `.backup` sibling (read + write); re-read; run the editor; write
the result; remove the backup on every exit after its creation (the `defer`
plus the explicit removal on success).  There is no restore of the backup on
a failed write.  The Go error returns (`nil, err`) are modelled as
`Except.error` with the formatted message. -/
def handleEditFileM (fs : FS) (dirs : List (List Char)) (cwd : List Comp)
    (wo : List Char → List Char → WriteRes)
    (flex : List Char → List Char → List Char →
      Option (List (List Char) × List Char))
    (path oldText newText : List Char) :
    Except (List Char) ToolResult × FS :=
  match validatePath fs dirs cwd path with
  | .error e => (.error (("path error: ").toList ++ e), fs)
  | .ok v =>
    match statStr fs v with
    | none => (.error msgStatErr, fs)
    | some n =>
      if n.isDir then (.error (("cannot edit directory").toList), fs)
      else
        match readFileStr fs v with
        | none =>
          (.error (("could not create backup: read failed").toList), fs)
        | some c0 =>
          let bp := v ++ (".backup").toList
          let w1 := writeFileOp fs wo bp c0
          if ¬ w1.1 then
            (.error (("could not create backup: write failed").toList), w1.2)
          else
            match readFileStr w1.2 v with
            | none =>
              (.error (("error reading file").toList), removeOp w1.2 bp)
            | some c1 =>
              match performIntelligentEdit c1 oldText newText flex with
              | .errEmpty =>
                (.error (("old_text cannot be empty").toList),
                  removeOp w1.2 bp)
              | .errNoMatch _ =>
                (.error ((("no matches found for text: ").toList) ++
                  goQuote oldText), removeOp w1.2 bp)
              | .ok r =>
                let w2 := writeFileOp w1.2 wo v r.ModifiedContent
                if ¬ w2.1 then
                  (.error ((("error writing file").toList)), removeOp w2.2 bp)
                else
                  let tr : ToolResult :=
                    { content :=
                        [CItem.text ((("Successfully edited ").toList) ++ path),
                         CItem.resourceText (pathToResourceURI v)
                           (("text/plain").toList)
                           ((("Edited: ").toList) ++ v)],
                      isError := false }
                  (.ok tr, removeOp w2.2 bp)

/-- The full run of `handleEditFile` on a validated existing file whose
backup write succeeds, as one equation over the editor's outcome and the
write oracle. -/
theorem editM_run (fs : FS) (dirs : List (List Char)) (cwd : List Comp)
    (wo : List Char → List Char → WriteRes)
    (flex : List Char → List Char → List Char →
      Option (List (List Char) × List Char))
    (path oldText newText v c0 : List Char)
    (hv : validatePath fs dirs cwd path = .ok v)
    (hstat : statStr fs v = some (.file c0))
    (hwb : wo (v ++ (".backup").toList) c0 = .ok) :
    handleEditFileM fs dirs cwd wo flex path oldText newText =
      (match performIntelligentEdit c0 oldText newText flex with
       | .errEmpty =>
         (Except.error (("old_text cannot be empty").toList),
           (fs.set (strToComps (v ++ (".backup").toList)) (FNode.file c0)).del
             (strToComps (v ++ (".backup").toList)))
       | .errNoMatch _ =>
         (Except.error ((("no matches found for text: ").toList) ++
            goQuote oldText),
           (fs.set (strToComps (v ++ (".backup").toList)) (FNode.file c0)).del
             (strToComps (v ++ (".backup").toList)))
       | .ok r =>
         match wo v r.ModifiedContent with
         | .ok =>
           (Except.ok
             { content :=
                 [CItem.text ((("Successfully edited ").toList) ++ path),
                  CItem.resourceText (pathToResourceURI v)
                    (("text/plain").toList)
                    ((("Edited: ").toList) ++ v)],
               isError := false },
             (((fs.set (strToComps (v ++ (".backup").toList))
                 (FNode.file c0)).set (strToComps v)
                 (FNode.file r.ModifiedContent))).del
               (strToComps (v ++ (".backup").toList)))
         | .failKeep =>
           (Except.error (("error writing file").toList),
             (fs.set (strToComps (v ++ (".backup").toList))
               (FNode.file c0)).del
               (strToComps (v ++ (".backup").toList)))
         | .failLeave l =>
           (Except.error (("error writing file").toList),
             ((fs.set (strToComps (v ++ (".backup").toList))
                (FNode.file c0)).set (strToComps v) (FNode.file l)).del
               (strToComps (v ++ (".backup").toList)))) := by
  obtain ⟨hvform, hcanon, hres⟩ :=
    validatePath_ok_exists_canon fs dirs cwd path v _ hv hstat
  have hgood : goodNames (strToComps v) :=
    canonSuffix_goodNames fs (strToComps v) [] hcanon
  have hvcne : strToComps v ≠ [] := by
    intro h
    rw [statStr, hres, h] at hstat
    dsimp only at hstat
    simp [FS.findC] at hstat
  have hfind : fs.findC (strToComps v) = some (.file c0) := by
    rw [statStr, hres] at hstat
    exact hstat
  have hbpKey : strToComps (v ++ (".backup").toList) =
      extComps (strToComps v) ((".backup").toList) := by
    conv_lhs => rw [hvform]
    exact strToComps_ext (strToComps v) hgood hvcne _ (by decide) (by decide)
  have hvc_ne_bp : strToComps v ≠ strToComps (v ++ (".backup").toList) := by
    rw [hbpKey]
    exact extComps_not_prefix (strToComps v) _ (by decide) (strToComps v)
      (List.prefix_refl _)
  have hagree : ∀ k, k <+: strToComps v → k ≠ [] →
      (fs.set (strToComps (v ++ (".backup").toList)) (FNode.file c0)).findC
        ([] ++ k) = fs.findC ([] ++ k) := by
    intro k hk _
    rw [List.nil_append]
    refine findC_set_other fs _ k _ ?_
    rw [hbpKey]
    exact extComps_not_prefix (strToComps v) _ (by decide) k hk
  have hcanon1 : CanonSuffix
      (fs.set (strToComps (v ++ (".backup").toList)) (FNode.file c0)) []
      (strToComps v) :=
    canonSuffix_stable fs _ (strToComps v) [] hagree hcanon
  have hres1 : resolveStr
      (fs.set (strToComps (v ++ (".backup").toList)) (FNode.file c0)) v =
      .ok (strToComps v) := by
    have hh := resolveStr_fromComps_of_canon _ _ hcanon1
    rw [← hvform] at hh
    exact hh
  have hread1 : readFileStr fs v = some c0 := by
    rw [readFileStr, hstat]
  have hread2 : readFileStr
      (fs.set (strToComps (v ++ (".backup").toList)) (FNode.file c0)) v =
      some c0 := by
    rw [readFileStr, statStr, hres1]
    dsimp only
    rw [findC_set_other fs _ _ _ hvc_ne_bp, hfind]
  rw [handleEditFileM, hv]
  dsimp only
  rw [hstat]
  dsimp only [FNode.isDir]
  rw [if_neg (by simp)]
  rw [hread1]
  dsimp only
  rw [writeFileOp, hwb]
  dsimp only
  rw [if_neg (by simp)]
  rw [hread2]
  dsimp only
  rcases hedit : performIntelligentEdit c0 oldText newText flex with r | _ | r0
  · dsimp only
    rw [writeFileOp]
    rcases hwo2 : wo v r.ModifiedContent with _ | _ | l
    · dsimp only
      rw [if_neg (by simp)]
      rfl
    · dsimp only
      rw [if_pos (by simp)]
      rfl
    · dsimp only
      rw [if_pos (by simp)]
      rfl
  · rfl
  · rfl

/-- Fixture for C6/C8: one allowed root `/d` holding a file `/d/f` with
content "abc". -/
def fs₆ : FS :=
  [(pathComps "/d", FNode.dir),
   (pathComps "/d/f", FNode.file (("abc").toList))]

def roots₆ : List (List Char) := [("/d/").toList]

/-- Write oracle that fails the write of `/d/f` leaving the partial
content "ab" on disk, and succeeds elsewhere. -/
def wo₆ : List Char → List Char → WriteRes := fun p _ =>
  if p = ("/d/f").toList then WriteRes.failLeave (("ab").toList)
  else WriteRes.ok

/-- Counterexample to C6's rollback clause: editing `/d/f` ("abc", old
"b", new "x") with a main write that fails after flushing only "ab"
returns an error, but the file is left with the partial content "ab"
rather than being restored to "abc", and the `.backup` sibling has been
removed — `handleEditFile` registers `defer os.Remove(backupPath)` and
has no restore path, so "the backup is restored and the edit rolls back"
is false. -/
theorem claim_C6_counterexample :
    ((handleEditFileM fs₆ roots₆ [] wo₆ flexNone (("/d/f").toList)
        (("b").toList) (("x").toList)).1 =
      Except.error (("error writing file").toList))
    ∧ ((handleEditFileM fs₆ roots₆ [] wo₆ flexNone (("/d/f").toList)
        (("b").toList) (("x").toList)).2.findC (pathComps "/d/f") =
      some (FNode.file (("ab").toList)))
    ∧ (fs₆.findC (pathComps "/d/f") = some (FNode.file (("abc").toList)))
    ∧ (("ab").toList ≠ ("abc").toList)
    ∧ ((handleEditFileM fs₆ roots₆ [] wo₆ flexNone (("/d/f").toList)
        (("b").toList) (("x").toList)).2.findC
        (strToComps ((("/d/f").toList) ++ ((".backup").toList))) = none) := by
  decide

/-- C6 (amended): for an edit of a validated existing file whose backup
write succeeds, the `.backup` sibling never persists past the call (it is
removed on every exit path); when no tier matches, an error is returned
and the file keeps its prior contents; when the editor succeeds and the
main write succeeds, the file holds the edited content; but when the main
write fails leaving partial data, the call errors and the file retains the
partial data — there is no restore from the backup. -/
theorem claim_C6_amended (fs : FS) (dirs : List (List Char))
    (cwd : List Comp) (wo : List Char → List Char → WriteRes)
    (flex : List Char → List Char → List Char →
      Option (List (List Char) × List Char))
    (path oldText newText v c0 : List Char)
    (hv : validatePath fs dirs cwd path = .ok v)
    (hstat : statStr fs v = some (.file c0))
    (hwb : wo (v ++ (".backup").toList) c0 = .ok) :
    ((handleEditFileM fs dirs cwd wo flex path oldText newText).2.findC
        (strToComps (v ++ (".backup").toList)) = none)
    ∧ (∀ r0, performIntelligentEdit c0 oldText newText flex =
          .errNoMatch r0 →
        (∃ e, (handleEditFileM fs dirs cwd wo flex path oldText
            newText).1 = .error e)
        ∧ (handleEditFileM fs dirs cwd wo flex path oldText
            newText).2.findC (strToComps v) = some (.file c0))
    ∧ (∀ r, performIntelligentEdit c0 oldText newText flex = .ok r →
        (wo v r.ModifiedContent = .ok →
          (∃ tr, (handleEditFileM fs dirs cwd wo flex path oldText
              newText).1 = .ok tr)
          ∧ (handleEditFileM fs dirs cwd wo flex path oldText
              newText).2.findC (strToComps v) =
            some (.file r.ModifiedContent))
        ∧ (∀ l, wo v r.ModifiedContent = .failLeave l →
          (∃ e, (handleEditFileM fs dirs cwd wo flex path oldText
              newText).1 = .error e)
          ∧ (handleEditFileM fs dirs cwd wo flex path oldText
              newText).2.findC (strToComps v) = some (.file l))) := by
  obtain ⟨hvform, hcanon, hres⟩ :=
    validatePath_ok_exists_canon fs dirs cwd path v _ hv hstat
  have hgood : goodNames (strToComps v) :=
    canonSuffix_goodNames fs (strToComps v) [] hcanon
  have hvcne : strToComps v ≠ [] := by
    intro h
    rw [statStr, hres, h] at hstat
    dsimp only at hstat
    simp [FS.findC] at hstat
  have hbpKey : strToComps (v ++ (".backup").toList) =
      extComps (strToComps v) ((".backup").toList) := by
    conv_lhs => rw [hvform]
    exact strToComps_ext (strToComps v) hgood hvcne _ (by decide) (by decide)
  have hbpne : strToComps (v ++ (".backup").toList) ≠ [] := by
    rw [hbpKey]; exact extComps_ne_nil _ _
  have hvc_ne_bp : strToComps v ≠ strToComps (v ++ (".backup").toList) := by
    rw [hbpKey]
    exact extComps_not_prefix (strToComps v) _ (by decide) (strToComps v)
      (List.prefix_refl _)
  rw [editM_run fs dirs cwd wo flex path oldText newText v c0 hv hstat hwb]
  refine ⟨?_, ?_, ?_⟩
  · rcases hedit : performIntelligentEdit c0 oldText newText flex with
      r | _ | r0
    · dsimp only
      rcases hwo2 : wo v r.ModifiedContent with _ | _ | l
      all_goals dsimp only
      all_goals exact findC_del_self _ _ hbpne
    · dsimp only
      exact findC_del_self _ _ hbpne
    · dsimp only
      exact findC_del_self _ _ hbpne
  · intro r0 hedit
    rw [hedit]
    dsimp only
    refine ⟨⟨_, rfl⟩, ?_⟩
    rw [findC_del_other _ _ _ hvc_ne_bp,
      findC_set_other _ _ _ _ hvc_ne_bp]
    rw [statStr, hres] at hstat
    exact hstat
  · intro r hedit
    rw [hedit]
    dsimp only
    constructor
    · intro hwo2
      rw [hwo2]
      dsimp only
      refine ⟨⟨_, rfl⟩, ?_⟩
      rw [findC_del_other _ _ _ hvc_ne_bp,
        findC_set_self _ _ _ hvcne]
    · intro l hwo2
      rw [hwo2]
      dsimp only
      refine ⟨⟨_, rfl⟩, ?_⟩
      rw [findC_del_other _ _ _ hvc_ne_bp,
        findC_set_self _ _ _ hvcne]

/-- Witness for C6 (amended): a successful edit of `/d/f` ("abc", "b" →
"x") under an always-succeeding write oracle ends with the file holding
"axc" and no `.backup` sibling. -/
theorem claim_C6_amended_witness :
    ((handleEditFileM fs₆ roots₆ [] (fun _ _ => WriteRes.ok) flexNone
        (("/d/f").toList) (("b").toList) (("x").toList)).2.findC
        (strToComps ((("/d/f").toList) ++ ((".backup").toList))) = none)
    ∧ ((handleEditFileM fs₆ roots₆ [] (fun _ _ => WriteRes.ok) flexNone
        (("/d/f").toList) (("b").toList) (("x").toList)).2.findC
        (strToComps (("/d/f").toList)) =
      some (FNode.file (("axc").toList))) := by
  have h := claim_C6_amended fs₆ roots₆ [] (fun _ _ => WriteRes.ok) flexNone
    (("/d/f").toList) (("b").toList) (("x").toList) (("/d/f").toList)
    (("abc").toList) (by decide) (by decide) rfl
  refine ⟨h.1, ?_⟩
  have hedit : performIntelligentEdit (("abc").toList) (("b").toList)
      (("x").toList) flexNone =
      .ok { ModifiedContent := ("axc").toList,
            ReplacementCount := 1,
            MatchConfidence := ("high").toList,
            LinesAffected := 1 } := by decide
  have h2 := (h.2.2 _ hedit).1 rfl
  exact h2.2

theorem rgo_cr : ∀ (fuel : Nat) (s : List Char), s.length ≤ fuel →
    '\r' ∉ rgo ['\r'] ['\n'] fuel s
  | 0, [], _ => by intro h; cases h
  | _ + 1, [], _ => by intro h; cases h
  | 0, a :: rest, hle => by cases hle
  | fuel + 1, a :: rest, hle => by
    rw [rgo]
    by_cases hp : ['\r'].isPrefixOf (a :: rest)
    · rw [if_pos hp]
      intro hmem
      rcases List.mem_append.1 hmem with h1 | h1
      · simp at h1
      · exact rgo_cr fuel _ (by simpa using Nat.le_of_succ_le_succ hle) h1
    · rw [if_neg hp]
      intro hmem
      rcases List.mem_cons.1 hmem with h1 | h1
      · apply hp
        rw [← h1]
        simp [List.isPrefixOf]
      · exact rgo_cr fuel rest (Nat.le_of_succ_le_succ hle) h1

theorem rgo_noCR (sub new : List Char) (hn : '\r' ∉ new) :
    ∀ (fuel : Nat) (s : List Char), '\r' ∉ s → '\r' ∉ rgo sub new fuel s
  | 0, [], _ => by intro h; cases h
  | _ + 1, [], _ => by intro h; cases h
  | 0, a :: rest, hs => hs
  | fuel + 1, a :: rest, hs => by
    rw [rgo]
    by_cases hp : sub.isPrefixOf (a :: rest)
    · rw [if_pos hp]
      intro hmem
      rcases List.mem_append.1 hmem with h1 | h1
      · exact hn h1
      · exact rgo_noCR sub new hn fuel _
          (fun hc => hs (List.drop_subset _ _ hc)) h1
    · rw [if_neg hp]
      intro hmem
      rcases List.mem_cons.1 hmem with h1 | h1
      · exact hs (h1 ▸ List.mem_cons_self a rest)
      · exact rgo_noCR sub new hn fuel rest
          (fun hc => hs (List.mem_cons_of_mem a hc)) h1

theorem replaceAll_noCR (s sub new : List Char) (hs : '\r' ∉ s)
    (hn : '\r' ∉ new) : '\r' ∉ replaceAll s sub new := by
  rw [replaceAll]
  by_cases hsub : sub = []
  · rw [if_pos hsub]
    intro hmem
    rcases List.mem_append.1 hmem with h1 | h1
    · exact hn h1
    · rcases List.mem_flatMap.1 h1 with ⟨c, hc, hin⟩
      rcases List.mem_cons.1 hin with h2 | h2
      · exact hs (h2 ▸ hc)
      · exact hn h2
  · rw [if_neg hsub]
    exact rgo_noCR sub new hn s.length s hs

theorem rfgo_noCR (sub new : List Char) (hn : '\r' ∉ new) :
    ∀ (fuel : Nat) (s : List Char), '\r' ∉ s → '\r' ∉ rfgo sub new fuel s
  | 0, [], _ => by intro h; cases h
  | _ + 1, [], _ => by intro h; cases h
  | 0, a :: rest, hs => hs
  | fuel + 1, a :: rest, hs => by
    rw [rfgo]
    by_cases hp : sub.isPrefixOf (a :: rest)
    · rw [if_pos hp]
      intro hmem
      rcases List.mem_append.1 hmem with h1 | h1
      · exact hn h1
      · exact hs (List.drop_subset _ _ h1)
    · rw [if_neg hp]
      intro hmem
      rcases List.mem_cons.1 hmem with h1 | h1
      · exact hs (h1 ▸ List.mem_cons_self a rest)
      · exact rfgo_noCR sub new hn fuel rest
          (fun hc => hs (List.mem_cons_of_mem a hc)) h1

theorem replaceFirst_noCR (s sub new : List Char) (hs : '\r' ∉ s)
    (hn : '\r' ∉ new) : '\r' ∉ replaceFirst s sub new := by
  rw [replaceFirst]
  by_cases hsub : sub = []
  · rw [if_pos hsub]
    intro hmem
    rcases List.mem_append.1 hmem with h1 | h1
    · exact hn h1
    · exact hs h1
  · rw [if_neg hsub]
    exact rfgo_noCR sub new hn s.length s hs

/-- The second pass of `normalizeLineEndings` replaces every remaining CR
by LF, so the output is CR-free. -/
theorem normalizeLineEndings_noCR (s : List Char) :
    '\r' ∉ normalizeLineEndings s := by
  rw [normalizeLineEndings, replaceAll, if_neg (by decide)]
  exact rgo_cr _ _ (Nat.le_refl _)

theorem trimSpace_subset (s : List Char) : trimSpace s ⊆ s := by
  intro a ha
  rw [trimSpace, List.mem_reverse] at ha
  have h1 := (List.dropWhile_sublist (l := (s.dropWhile isSpaceGo).reverse)
    isSpaceGo).subset ha
  rw [List.mem_reverse] at h1
  exact (List.dropWhile_sublist isSpaceGo).subset h1

theorem splitNl_ne_nil : ∀ s : List Char, splitNl s ≠ []
  | [] => by rw [splitNl]; intro h; cases h
  | c :: rest => by
    rw [splitNl]
    by_cases hc : c = '\n'
    · rw [if_pos hc]; intro h; cases h
    · rw [if_neg hc]
      cases hsp : splitNl rest with
      | nil => intro h; cases h
      | cons g gs => intro h; cases h

theorem splitNl_noCR : ∀ s : List Char, '\r' ∉ s →
    ∀ l ∈ splitNl s, '\r' ∉ l
  | [], _ => by
    rw [splitNl]
    intro l hl
    rw [List.mem_singleton.1 hl]
    intro h; cases h
  | c :: rest, hs => by
    have hrest : '\r' ∉ rest := fun h => hs (List.mem_cons_of_mem c h)
    rw [splitNl]
    by_cases hc : c = '\n'
    · rw [if_pos hc]
      intro l hl
      rcases List.mem_cons.1 hl with h1 | h1
      · rw [h1]; intro h; cases h
      · exact splitNl_noCR rest hrest l h1
    · rw [if_neg hc]
      cases hsp : splitNl rest with
      | nil => exact absurd hsp (splitNl_ne_nil rest)
      | cons g gs =>
        intro l hl
        rcases List.mem_cons.1 hl with h1 | h1
        · rw [h1]
          intro hmem
          rcases List.mem_cons.1 hmem with h2 | h2
          · exact hs (h2 ▸ List.mem_cons_self c rest)
          · exact splitNl_noCR rest hrest g (hsp ▸ List.mem_cons_self g gs)
              h2
        · exact splitNl_noCR rest hrest l
            (hsp ▸ List.mem_cons_of_mem g h1)

theorem joinNl_noCR : ∀ ls : List (List Char), (∀ l ∈ ls, '\r' ∉ l) →
    '\r' ∉ joinNl ls
  | [], _ => by rw [joinNl]; intro h; cases h
  | [l], h => by
    rw [joinNl]
    exact h l (List.mem_singleton.2 rfl)
  | l :: l' :: ls', h => by
    have heq : joinNl (l :: l' :: ls') = l ++ '\n' :: joinNl (l' :: ls') :=
      rfl
    rw [heq]
    intro hmem
    rcases List.mem_append.1 hmem with h1 | h1
    · exact h l (List.mem_cons_self _ _) h1
    · rcases List.mem_cons.1 h1 with h2 | h2
      · cases h2
      · exact joinNl_noCR (l' :: ls')
          (fun x hx => h x (List.mem_cons_of_mem l hx)) h2

/-- Each line the per-line pass emits is CR-free when the input line and
the replacement text are. -/
theorem editLineStep_noCR (oldText newText normalizedOld : List Char)
    (hn : '\r' ∉ newText) (acc : List (List Char) × Nat × Nat)
    (ha : ∀ l ∈ acc.1, '\r' ∉ l) (line : List Char) (hl : '\r' ∉ line) :
    ∀ l ∈ (editLineStep oldText newText normalizedOld acc line).1,
      '\r' ∉ l := by
  rw [editLineStep]
  have htr : '\r' ∉ trimSpace newText :=
    fun hc => hn (trimSpace_subset newText hc)
  by_cases h1 : trimSpace line = normalizedOld
  · rw [if_pos h1]
    intro l hmem
    rcases List.mem_append.1 hmem with hx | hx
    · exact ha l hx
    · rw [List.mem_singleton.1 hx]
      intro hc
      rcases List.mem_append.1 hc with hy | hy
      · exact hl (List.take_subset _ _ hy)
      · exact htr hy
  · rw [if_neg h1]
    by_cases h2 : containsSub line oldText
    · rw [if_pos h2]
      intro l hmem
      rcases List.mem_append.1 hmem with hx | hx
      · exact ha l hx
      · rw [List.mem_singleton.1 hx]
        exact replaceAll_noCR line oldText newText hl hn
    · rw [if_neg h2]
      by_cases h3 : containsSub line normalizedOld
      · rw [if_pos h3]
        intro l hmem
        rcases List.mem_append.1 hmem with hx | hx
        · exact ha l hx
        · rw [List.mem_singleton.1 hx]
          exact replaceAll_noCR line normalizedOld newText hl hn
      · rw [if_neg h3]
        by_cases h4 : containsSub (normalizeWhitespace line)
            (normalizeWhitespace oldText)
        · rw [if_pos h4]
          intro l hmem
          rcases List.mem_append.1 hmem with hx | hx
          · exact ha l hx
          · rw [List.mem_singleton.1 hx]
            rw [reconstructLine]
            exact replaceFirst_noCR line (trimSpace oldText)
              (trimSpace newText) hl htr
        · rw [if_neg h4]
          intro l hmem
          rcases List.mem_append.1 hmem with hx | hx
          · exact ha l hx
          · rw [List.mem_singleton.1 hx]
            exact hl

theorem foldl_editLineStep_noCR (oldText newText normalizedOld : List Char)
    (hn : '\r' ∉ newText) :
    ∀ (lines : List (List Char)) (acc : List (List Char) × Nat × Nat),
      (∀ l ∈ acc.1, '\r' ∉ l) → (∀ l ∈ lines, '\r' ∉ l) →
      ∀ l ∈ (lines.foldl (editLineStep oldText newText normalizedOld)
          acc).1, '\r' ∉ l
  | [], acc, ha, _ => by
    rw [List.foldl_nil]
    exact ha
  | line :: rest, acc, ha, hls => by
    rw [List.foldl_cons]
    exact foldl_editLineStep_noCR oldText newText normalizedOld hn rest _
      (editLineStep_noCR oldText newText normalizedOld hn acc ha line
        (hls line (List.mem_cons_self _ _)))
      (fun l hl => hls l (List.mem_cons_of_mem line hl))

/-- A successful `performIntelligentEdit` produces CR-free content when
the regexp engine does (on CR-free inputs): every tier rebuilds the file
from the line-ending-normalized content. -/
theorem performIntelligentEdit_noCR (content oldText newText : List Char)
    (flex : List Char → List Char → List Char →
      Option (List (List Char) × List Char))
    (hflex : ∀ p cc nn ms nc, flex p cc nn = some (ms, nc) →
      '\r' ∉ cc → '\r' ∉ nn → '\r' ∉ nc)
    (r : EditResult)
    (h : performIntelligentEdit content oldText newText flex = .ok r) :
    '\r' ∉ r.ModifiedContent := by
  rw [performIntelligentEdit] at h
  by_cases hempty : oldText = []
  · rw [if_pos hempty] at h
    cases h
  · rw [if_neg hempty] at h
    dsimp only at h
    by_cases hex : 0 < countOcc (normalizeLineEndings content)
        (normalizeLineEndings oldText)
    · rw [if_pos hex] at h
      cases h
      exact replaceAll_noCR _ _ _ (normalizeLineEndings_noCR content)
        (normalizeLineEndings_noCR newText)
    · rw [if_neg hex] at h
      by_cases hrep : ((splitNl (normalizeLineEndings content)).foldl
          (editLineStep (normalizeLineEndings oldText)
            (normalizeLineEndings newText)
            (trimSpace (normalizeLineEndings oldText))) ([], 0, 0)).2.1 = 0
      · rw [if_pos hrep] at h
        by_cases hml : findMultilineMatch (normalizeLineEndings content)
            (normalizeLineEndings oldText)
        · rw [if_pos hml] at h
          cases h
          exact replaceAll_noCR _ _ _ (normalizeLineEndings_noCR content)
            (normalizeLineEndings_noCR newText)
        · rw [if_neg hml] at h
          cases hfx : flex (makeFlexiblePattern
              (quoteMeta (normalizeLineEndings oldText)))
              (normalizeLineEndings content)
              (normalizeLineEndings newText) with
          | none => rw [hfx] at h; cases h
          | some p =>
            obtain ⟨ms, nc⟩ := p
            rw [hfx] at h
            dsimp only at h
            by_cases hms : 0 < ms.length
            · rw [if_pos hms] at h
              cases h
              exact hflex _ _ _ ms nc hfx
                (normalizeLineEndings_noCR content)
                (normalizeLineEndings_noCR newText)
            · rw [if_neg hms] at h
              cases h
      · rw [if_neg hrep] at h
        cases h
        apply joinNl_noCR
        exact foldl_editLineStep_noCR _ _ _
          (normalizeLineEndings_noCR newText) _ _ (by intro l hl; cases hl)
          (splitNl_noCR _ (normalizeLineEndings_noCR content))

/-- C10: a successful `edit_file` call rewrites the whole file with
line-ending-normalized content — whatever tier matched, the stored result
contains no carriage return (every CRLF and lone CR of the original became
LF, also on lines not containing `old_text`), provided the regexp engine
maps CR-free inputs to CR-free output. -/
theorem claim_C10_normalized_rewrite (fs : FS) (dirs : List (List Char))
    (cwd : List Comp) (wo : List Char → List Char → WriteRes)
    (flex : List Char → List Char → List Char →
      Option (List (List Char) × List Char))
    (path oldText newText v c0 : List Char)
    (hv : validatePath fs dirs cwd path = .ok v)
    (hstat : statStr fs v = some (.file c0))
    (hwb : wo (v ++ (".backup").toList) c0 = .ok)
    (hflex : ∀ p cc nn ms nc, flex p cc nn = some (ms, nc) →
      '\r' ∉ cc → '\r' ∉ nn → '\r' ∉ nc)
    (tr : ToolResult)
    (hok : (handleEditFileM fs dirs cwd wo flex path oldText
      newText).1 = .ok tr) :
    ∃ m, (handleEditFileM fs dirs cwd wo flex path oldText
        newText).2.findC (strToComps v) = some (.file m) ∧ '\r' ∉ m := by
  obtain ⟨hvform, hcanon, hres⟩ :=
    validatePath_ok_exists_canon fs dirs cwd path v _ hv hstat
  have hgood : goodNames (strToComps v) :=
    canonSuffix_goodNames fs (strToComps v) [] hcanon
  have hvcne : strToComps v ≠ [] := by
    intro h
    rw [statStr, hres, h] at hstat
    dsimp only at hstat
    simp [FS.findC] at hstat
  have hbpKey : strToComps (v ++ (".backup").toList) =
      extComps (strToComps v) ((".backup").toList) := by
    conv_lhs => rw [hvform]
    exact strToComps_ext (strToComps v) hgood hvcne _ (by decide) (by decide)
  have hvc_ne_bp : strToComps v ≠ strToComps (v ++ (".backup").toList) := by
    rw [hbpKey]
    exact extComps_not_prefix (strToComps v) _ (by decide) (strToComps v)
      (List.prefix_refl _)
  rw [editM_run fs dirs cwd wo flex path oldText newText v c0 hv hstat hwb]
    at hok ⊢
  rcases hedit : performIntelligentEdit c0 oldText newText flex with
    r | _ | r0
  · rw [hedit] at hok
    dsimp only at hok ⊢
    rcases hwo2 : wo v r.ModifiedContent with _ | _ | l
    · rw [hwo2] at hok
      dsimp only at hok ⊢
      refine ⟨r.ModifiedContent, ?_,
        performIntelligentEdit_noCR c0 oldText newText flex hflex r hedit⟩
      rw [findC_del_other _ _ _ hvc_ne_bp, findC_set_self _ _ _ hvcne]
    · rw [hwo2] at hok
      dsimp only at hok
      cases hok
    · rw [hwo2] at hok
      dsimp only at hok
      cases hok
  · rw [hedit] at hok
    dsimp only at hok
    cases hok
  · rw [hedit] at hok
    dsimp only at hok
    cases hok

/-- CRLF fixture for the C10 witness: `/d/f` holds "a\r\nb\r\nc". -/
def fs₁₀ : FS :=
  [(pathComps "/d", FNode.dir),
   (pathComps "/d/f", FNode.file (("a\r\nb\r\nc").toList))]

/-- Witness for C10: editing only the middle line ("b" → "B") of the CRLF
file leaves "a\nB\nc" — the untouched lines were converted to LF too. -/
theorem claim_C10_witness :
    (∃ m, (handleEditFileM fs₁₀ roots₆ [] (fun _ _ => WriteRes.ok) flexNone
        (("/d/f").toList) (("b").toList) (("B").toList)).2.findC
        (strToComps (("/d/f").toList)) = some (FNode.file m) ∧ '\r' ∉ m)
    ∧ (handleEditFileM fs₁₀ roots₆ [] (fun _ _ => WriteRes.ok) flexNone
        (("/d/f").toList) (("b").toList) (("B").toList)).2.findC
        (strToComps (("/d/f").toList)) =
      some (FNode.file (("a\nB\nc").toList)) := by
  refine ⟨claim_C10_normalized_rewrite fs₁₀ roots₆ []
    (fun _ _ => WriteRes.ok) flexNone (("/d/f").toList) (("b").toList)
    (("B").toList) (("/d/f").toList) (("a\r\nb\r\nc").toList) (by decide)
    (by decide) rfl (fun p cc nn ms nc hfx _ _ => by cases hfx)
    { content :=
        [CItem.text ((("Successfully edited ").toList) ++
           (("/d/f").toList)),
         CItem.resourceText (pathToResourceURI (("/d/f").toList))
           (("text/plain").toList)
           ((("Edited: ").toList) ++ (("/d/f").toList))],
      isError := false }
    (by decide), by decide⟩

/-! ## `write_file_safe` (handler_chunked.go:306-399) -/

/-- `os.MkdirAll` on a slash-free component chain: walk the components,
an existing directory is kept, a missing one is created, an existing
non-directory entry aborts with the entries created so far persisting.
(Go stat-follows symlinked ancestors; the paths fed here are canonical
outputs of `validatePath`, whose ancestors are plain directories.) -/
def mkdirComps (fs : FS) (base : List Comp) : List Comp → Bool × FS
  | [] => (true, fs)
  | c :: rest =>
    match fs.findC (base ++ [c]) with
    | some FNode.dir => mkdirComps fs (base ++ [c]) rest
    | some _ => (false, fs)
    | none => mkdirComps (fs.set (base ++ [c]) FNode.dir) (base ++ [c]) rest

/-- The backup phase of `handleWriteFileSafe`: when requested and
`os.Stat` succeeds, `createBackup` reads the file and writes the
`.backup` sibling; the flag reports success, the `Option` the backup path
announced in the final message. -/
def safeBackupStep (fs : FS) (wo : List Char → List Char → WriteRes)
    (cb : Bool) (v : List Char) : Bool × Option (List Char) × FS :=
  if cb then
    match statStr fs v with
    | some _ =>
      match readFileStr fs v with
      | none => (false, none, fs)
      | some c0 =>
        let w := writeFileOp fs wo (v ++ (".backup").toList) c0
        if w.1 then (true, some (v ++ (".backup").toList), w.2)
        else (false, none, w.2)
    | none => (true, none, fs)
  else (true, none, fs)

/-- `handleWriteFileSafe` (handler_chunked.go:306): reject empty path or
content; validate; optional backup of a pre-existing file; `MkdirAll` the
parent; write `validated + ".tmp"` — on failure return the error WITHOUT
removing the temp file; rename the temp onto the target, removing the
temp only when the RENAME fails. -/
def handleWriteFileSafeM (fs : FS) (dirs : List (List Char))
    (cwd : List Comp) (wo : List Char → List Char → WriteRes)
    (ro : List Char → List Char → Bool) (path content : List Char)
    (cb : Bool) : Except (List Char) ToolResult × FS :=
  if path = [] ∨ content = [] then
    (.error (("❌ Error: path and content are required").toList), fs)
  else
    match validatePath fs dirs cwd path with
    | .error e => (.error ((("❌ Error: ").toList) ++ e), fs)
    | .ok v =>
      let b := safeBackupStep fs wo cb v
      if ¬ b.1 then
        (.error (("❌ Error creating backup").toList), b.2.2)
      else
        let m := mkdirComps b.2.2 [] (strToComps (dirStr v))
        if ¬ m.1 then
          (.error (("❌ Error creating directory").toList), m.2)
        else
          let w := writeFileOp m.2 wo (v ++ (".tmp").toList) content
          if ¬ w.1 then
            (.error (("❌ Error writing temp file").toList), w.2)
          else
            let r := renameOp w.2 ro (v ++ (".tmp").toList) v
            if ¬ r.1 then
              (.error (("❌ Error finalizing file").toList),
                removeOp r.2 (v ++ (".tmp").toList))
            else
              let tr : ToolResult :=
                { content :=
                    [CItem.text ((("✅ Safe write completed: ").toList) ++
                      path ++ (("\nSize: ").toList) ++
                      natStr content.length ++ ((" bytes").toList) ++
                      (match b.2.1 with
                       | some bp => (("\nBackup: ").toList) ++ bp
                       | none => []))],
                  isError := false }
              (.ok tr, r.2)

/-- Every nonempty prefix of all but the last component of a canonical
suffix is a directory. -/
theorem canonSuffix_prefix_dir (fs : FS) :
    ∀ (l : List Comp) (base : List Comp), CanonSuffix fs base l →
      ∀ k, k <+: l.dropLast → k ≠ [] →
        fs.findC (base ++ k) = some FNode.dir
  | [], base, _ => by
    intro k hk hkne
    rw [List.dropLast_nil] at hk
    exact absurd (List.prefix_nil.1 hk) hkne
  | [c], base, _ => by
    intro k hk hkne
    rw [List.dropLast_single] at hk
    exact absurd (List.prefix_nil.1 hk) hkne
  | c :: d :: rest, base, h => by
    obtain ⟨-, hd, hcs⟩ := h
    intro k hk hkne
    have hdl : (c :: d :: rest).dropLast = c :: (d :: rest).dropLast := rfl
    rw [hdl] at hk
    rcases k with _ | ⟨k0, k'⟩
    · exact absurd rfl hkne
    · obtain ⟨hk0, hk'⟩ := (List.cons_prefix_cons).1 hk
      subst hk0
      by_cases hk'e : k' = []
      · subst hk'e
        exact hd
      · have heq : base ++ k0 :: k' = (base ++ [k0]) ++ k' := by
          rw [List.append_assoc]; rfl
        rw [heq]
        exact canonSuffix_prefix_dir fs (d :: rest) (base ++ [k0]) hcs k'
          hk' hk'e

/-- `MkdirAll` is a no-op when every directory on the chain already
exists. -/
theorem mkdirComps_noop (fs : FS) :
    ∀ (l : List Comp) (base : List Comp),
      (∀ k, k <+: l → k ≠ [] → fs.findC (base ++ k) = some FNode.dir) →
      mkdirComps fs base l = (true, fs)
  | [], base, _ => rfl
  | c :: rest, base, h => by
    rw [mkdirComps]
    rw [h [c] ⟨rest, rfl⟩ (by intro hx; cases hx)]
    refine mkdirComps_noop fs rest (base ++ [c]) ?_
    intro k hk hkne
    have heq : (base ++ [c]) ++ k = base ++ c :: k := by
      rw [List.append_assoc]; rfl
    rw [heq]
    exact h (c :: k) ((List.cons_prefix_cons).2 ⟨rfl, hk⟩)
      (by intro hx; cases hx)

/-- The full run of `handleWriteFileSafe` on a validated existing file
whose backup write succeeds, as one equation over the temp-write oracle
and the rename oracle. -/
theorem writeSafeM_run (fs : FS) (dirs : List (List Char)) (cwd : List Comp)
    (wo : List Char → List Char → WriteRes)
    (ro : List Char → List Char → Bool) (path content : List Char)
    (cb : Bool) (v c0 : List Char)
    (hpne : path ≠ []) (hcne : content ≠ [])
    (hv : validatePath fs dirs cwd path = .ok v)
    (hstat : statStr fs v = some (.file c0))
    (hwb : wo (v ++ (".backup").toList) c0 = .ok) :
    handleWriteFileSafeM fs dirs cwd wo ro path content cb =
      (let fs1 := if cb then
          fs.set (strToComps (v ++ (".backup").toList)) (FNode.file c0)
        else fs
       let bkOpt : Option (List Char) :=
         if cb then some (v ++ (".backup").toList) else none
       match wo (v ++ (".tmp").toList) content with
       | .failKeep =>
         (.error (("❌ Error writing temp file").toList), fs1)
       | .failLeave l =>
         (.error (("❌ Error writing temp file").toList),
           fs1.set (strToComps (v ++ (".tmp").toList)) (FNode.file l))
       | .ok =>
         if ro (v ++ (".tmp").toList) v then
           (.ok
             { content :=
                 [CItem.text ((("✅ Safe write completed: ").toList) ++
                   path ++ (("\nSize: ").toList) ++
                   natStr content.length ++ ((" bytes").toList) ++
                   (match bkOpt with
                    | some bp => (("\nBackup: ").toList) ++ bp
                    | none => []))],
               isError := false },
            ((fs1.set (strToComps (v ++ (".tmp").toList))
               (FNode.file content)).del
               (strToComps (v ++ (".tmp").toList))).set (strToComps v)
              (FNode.file content))
         else
           (.error (("❌ Error finalizing file").toList),
            (fs1.set (strToComps (v ++ (".tmp").toList))
              (FNode.file content)).del
              (strToComps (v ++ (".tmp").toList)))) := by
  obtain ⟨hvform, hcanon, hres⟩ :=
    validatePath_ok_exists_canon fs dirs cwd path v _ hv hstat
  have hgood : goodNames (strToComps v) :=
    canonSuffix_goodNames fs (strToComps v) [] hcanon
  have hvcne : strToComps v ≠ [] := by
    intro h
    rw [statStr, hres, h] at hstat
    dsimp only at hstat
    simp [FS.findC] at hstat
  have hbkKey : strToComps (v ++ (".backup").toList) =
      extComps (strToComps v) ((".backup").toList) := by
    conv_lhs => rw [hvform]
    exact strToComps_ext (strToComps v) hgood hvcne _ (by decide) (by decide)
  have hgoodDl : goodNames (strToComps v).dropLast := by
    intro c hc
    exact hgood c ((List.dropLast_prefix _).subset hc)
  have hdirEq : strToComps (dirStr v) = (strToComps v).dropLast := by
    rw [dirStr]
    exact strToComps_fromComps _ hgoodDl
  have hread1 : readFileStr fs v = some c0 := by
    rw [readFileStr, hstat]
  have hnoop : ∀ fs' : FS,
      (∀ k, k <+: (strToComps v).dropLast → k ≠ [] →
        fs'.findC k = some FNode.dir) →
      mkdirComps fs' [] (strToComps (dirStr v)) = (true, fs') := by
    intro fs' hdirs
    rw [hdirEq]
    refine mkdirComps_noop fs' _ [] ?_
    intro k hk hkne
    rw [List.nil_append]
    exact hdirs k hk hkne
  have hdirsFs : ∀ k, k <+: (strToComps v).dropLast → k ≠ [] →
      fs.findC k = some FNode.dir := by
    intro k hk hkne
    have := canonSuffix_prefix_dir fs (strToComps v) [] hcanon k hk hkne
    rwa [List.nil_append] at this
  have hdirsFs1 : ∀ k, k <+: (strToComps v).dropLast → k ≠ [] →
      (fs.set (strToComps (v ++ (".backup").toList))
        (FNode.file c0)).findC k = some FNode.dir := by
    intro k hk hkne
    rw [findC_set_other]
    · exact hdirsFs k hk hkne
    · rw [hbkKey]
      exact extComps_not_prefix (strToComps v) _ (by decide) k
        (hk.trans (List.dropLast_prefix _))
  have htmpne : strToComps (v ++ (".tmp").toList) ≠ [] := by
    have h1 : strToComps (v ++ (".tmp").toList) =
        extComps (strToComps v) ((".tmp").toList) := by
      conv_lhs => rw [hvform]
      exact strToComps_ext (strToComps v) hgood hvcne _ (by decide)
        (by decide)
    rw [h1]
    exact extComps_ne_nil _ _
  have hbF : safeBackupStep fs wo false v = (true, none, fs) := rfl
  have hbT : safeBackupStep fs wo true v =
      (true, some (v ++ (".backup").toList),
        fs.set (strToComps (v ++ (".backup").toList)) (FNode.file c0)) := by
    rw [safeBackupStep, if_pos rfl, hstat]
    dsimp only
    rw [hread1]
    dsimp only
    rw [writeFileOp, hwb]
    rfl
  rw [handleWriteFileSafeM, if_neg (by simp [hpne, hcne]), hv]
  dsimp only
  cases cb with
  | false =>
    rw [hbF]
    dsimp only
    rw [if_neg (by simp)]
    rw [hnoop fs hdirsFs]
    dsimp only
    rw [if_neg (by simp), writeFileOp]
    cases hwo2 : wo (v ++ (".tmp").toList) content with
    | ok =>
      dsimp only
      rw [if_neg (by simp), renameOp]
      by_cases hro : ro (v ++ (".tmp").toList) v = true
      · rw [hro]
        rw [findC_set_self _ _ _ htmpne]
        dsimp only
        rw [if_neg (by simp)]
        rfl
      · rw [Bool.not_eq_true] at hro
        rw [hro]
        rw [if_pos (by simp)]
        rfl
    | failKeep =>
      dsimp only
      rw [if_pos (by simp)]
      rfl
    | failLeave l =>
      dsimp only
      rw [if_pos (by simp)]
      rfl
  | true =>
    rw [hbT]
    dsimp only
    rw [if_neg (by simp)]
    rw [hnoop (fs.set (strToComps (v ++ (".backup").toList))
      (FNode.file c0)) hdirsFs1]
    dsimp only
    rw [if_neg (by simp), writeFileOp]
    cases hwo2 : wo (v ++ (".tmp").toList) content with
    | ok =>
      dsimp only
      rw [if_neg (by simp), renameOp]
      by_cases hro : ro (v ++ (".tmp").toList) v = true
      · rw [hro]
        rw [findC_set_self _ _ _ htmpne]
        dsimp only
        rw [if_neg (by simp)]
        rfl
      · rw [Bool.not_eq_true] at hro
        rw [hro]
        rw [if_pos (by simp)]
        rfl
    | failKeep =>
      dsimp only
      rw [if_pos (by simp)]
      rfl
    | failLeave l =>
      dsimp only
      rw [if_pos (by simp)]
      rfl

/-- Write oracle for the C8 counterexample: the write of `/d/f.tmp` fails
leaving the partial content "pa"; every other write succeeds. -/
def wo₈ : List Char → List Char → WriteRes := fun p _ =>
  if p = ("/d/f.tmp").toList then WriteRes.failLeave (("pa").toList)
  else WriteRes.ok

/-- Counterexample to C8's "p.tmp does not exist after failure" clause:
when the temp-file write itself fails (leaving partial data), the handler
returns the error without `os.Remove(tempPath)` — that cleanup only runs
on the RENAME error path — so `/d/f.tmp` persists after the failed call;
the target file does keep its prior contents. -/
theorem claim_C8_counterexample :
    ((handleWriteFileSafeM fs₆ roots₆ [] wo₈ (fun _ _ => true)
        (("/d/f").toList) (("xyz").toList) false).1 =
      Except.error (("❌ Error writing temp file").toList))
    ∧ ((handleWriteFileSafeM fs₆ roots₆ [] wo₈ (fun _ _ => true)
        (("/d/f").toList) (("xyz").toList) false).2.findC
        (strToComps (("/d/f.tmp").toList)) =
      some (FNode.file (("pa").toList)))
    ∧ ((handleWriteFileSafeM fs₆ roots₆ [] wo₈ (fun _ _ => true)
        (("/d/f").toList) (("xyz").toList) false).2.findC
        (pathComps "/d/f") = some (FNode.file (("abc").toList))) := by
  decide

/-- C8 (amended): for a `write_file_safe` call on a validated existing
file whose backup write succeeds, a failed call always leaves the target
with its prior contents; the temp file is removed when the RENAME fails,
but when the temp-file WRITE fails leaving partial data, `p.tmp` persists
past the call; on success the target holds the new content, the temp file
is gone, a requested backup of the pre-existing file is retained, and
every other key of the filesystem is unchanged. -/
theorem claim_C8_amended (fs : FS) (dirs : List (List Char))
    (cwd : List Comp) (wo : List Char → List Char → WriteRes)
    (ro : List Char → List Char → Bool) (path content : List Char)
    (cb : Bool) (v c0 : List Char)
    (hpne : path ≠ []) (hcne : content ≠ [])
    (hv : validatePath fs dirs cwd path = .ok v)
    (hstat : statStr fs v = some (.file c0))
    (hwb : wo (v ++ (".backup").toList) c0 = .ok) :
    (∀ l, wo (v ++ (".tmp").toList) content = .failLeave l →
      (∃ e, (handleWriteFileSafeM fs dirs cwd wo ro path content
        cb).1 = .error e)
      ∧ (handleWriteFileSafeM fs dirs cwd wo ro path content
          cb).2.findC (strToComps v) = some (.file c0)
      ∧ (handleWriteFileSafeM fs dirs cwd wo ro path content
          cb).2.findC (strToComps (v ++ (".tmp").toList)) =
        some (.file l))
    ∧ (wo (v ++ (".tmp").toList) content = .failKeep →
      (∃ e, (handleWriteFileSafeM fs dirs cwd wo ro path content
        cb).1 = .error e)
      ∧ (handleWriteFileSafeM fs dirs cwd wo ro path content
          cb).2.findC (strToComps v) = some (.file c0)
      ∧ (handleWriteFileSafeM fs dirs cwd wo ro path content
          cb).2.findC (strToComps (v ++ (".tmp").toList)) =
        fs.findC (strToComps (v ++ (".tmp").toList)))
    ∧ (wo (v ++ (".tmp").toList) content = .ok →
        ro (v ++ (".tmp").toList) v = false →
      (∃ e, (handleWriteFileSafeM fs dirs cwd wo ro path content
        cb).1 = .error e)
      ∧ (handleWriteFileSafeM fs dirs cwd wo ro path content
          cb).2.findC (strToComps v) = some (.file c0)
      ∧ (handleWriteFileSafeM fs dirs cwd wo ro path content
          cb).2.findC (strToComps (v ++ (".tmp").toList)) = none)
    ∧ (wo (v ++ (".tmp").toList) content = .ok →
        ro (v ++ (".tmp").toList) v = true →
      (∃ tr, (handleWriteFileSafeM fs dirs cwd wo ro path content
        cb).1 = .ok tr)
      ∧ (handleWriteFileSafeM fs dirs cwd wo ro path content
          cb).2.findC (strToComps v) = some (.file content)
      ∧ (handleWriteFileSafeM fs dirs cwd wo ro path content
          cb).2.findC (strToComps (v ++ (".tmp").toList)) = none
      ∧ (cb = true → (handleWriteFileSafeM fs dirs cwd wo ro path
          content cb).2.findC (strToComps (v ++ (".backup").toList)) =
          some (.file c0))
      ∧ (∀ k, k ≠ strToComps v → k ≠ strToComps (v ++ (".tmp").toList) →
          k ≠ strToComps (v ++ (".backup").toList) →
          (handleWriteFileSafeM fs dirs cwd wo ro path content
            cb).2.findC k = fs.findC k)) := by
  obtain ⟨hvform, hcanon, hres⟩ :=
    validatePath_ok_exists_canon fs dirs cwd path v _ hv hstat
  have hgood : goodNames (strToComps v) :=
    canonSuffix_goodNames fs (strToComps v) [] hcanon
  have hvcne : strToComps v ≠ [] := by
    intro h
    rw [statStr, hres, h] at hstat
    dsimp only at hstat
    simp [FS.findC] at hstat
  have hfind : fs.findC (strToComps v) = some (.file c0) := by
    rw [statStr, hres] at hstat
    exact hstat
  have hbkKey : strToComps (v ++ (".backup").toList) =
      extComps (strToComps v) ((".backup").toList) := by
    conv_lhs => rw [hvform]
    exact strToComps_ext (strToComps v) hgood hvcne _ (by decide) (by decide)
  have htmpKey : strToComps (v ++ (".tmp").toList) =
      extComps (strToComps v) ((".tmp").toList) := by
    conv_lhs => rw [hvform]
    exact strToComps_ext (strToComps v) hgood hvcne _ (by decide) (by decide)
  have htmpne : strToComps (v ++ (".tmp").toList) ≠ [] := by
    rw [htmpKey]; exact extComps_ne_nil _ _
  have hbkne : strToComps (v ++ (".backup").toList) ≠ [] := by
    rw [hbkKey]; exact extComps_ne_nil _ _
  have hvc_ne_tmp : strToComps v ≠ strToComps (v ++ (".tmp").toList) := by
    rw [htmpKey]
    exact extComps_not_prefix (strToComps v) _ (by decide) (strToComps v)
      (List.prefix_refl _)
  have hvc_ne_bk : strToComps v ≠ strToComps (v ++ (".backup").toList) := by
    rw [hbkKey]
    exact extComps_not_prefix (strToComps v) _ (by decide) (strToComps v)
      (List.prefix_refl _)
  have hbk_ne_tmp : strToComps (v ++ (".backup").toList) ≠
      strToComps (v ++ (".tmp").toList) := by
    rw [hbkKey, htmpKey]
    exact extComps_inj_suffix (strToComps v) _ _ (by decide)
  rw [writeSafeM_run fs dirs cwd wo ro path content cb v c0 hpne hcne hv
    hstat hwb]
  dsimp only
  refine ⟨?_, ?_, ?_, ?_⟩
  · intro l hwo2
    rw [hwo2]
    dsimp only
    refine ⟨⟨_, rfl⟩, ?_, ?_⟩
    · rw [findC_set_other _ _ _ _ hvc_ne_tmp]
      cases cb with
      | false => exact hfind
      | true =>
        rw [if_pos rfl, findC_set_other _ _ _ _ hvc_ne_bk]
        exact hfind
    · rw [findC_set_self _ _ _ htmpne]
  · intro hwo2
    rw [hwo2]
    dsimp only
    refine ⟨⟨_, rfl⟩, ?_, ?_⟩
    · cases cb with
      | false => exact hfind
      | true =>
        rw [if_pos rfl, findC_set_other _ _ _ _ hvc_ne_bk]
        exact hfind
    · cases cb with
      | false => rfl
      | true =>
        rw [if_pos rfl, findC_set_other _ _ _ _ (Ne.symm hbk_ne_tmp)]
  · intro hwo2 hro
    rw [hwo2, hro]
    dsimp only
    rw [if_neg (by simp)]
    refine ⟨⟨_, rfl⟩, ?_, ?_⟩
    · rw [findC_del_other _ _ _ hvc_ne_tmp,
        findC_set_other _ _ _ _ hvc_ne_tmp]
      cases cb with
      | false => exact hfind
      | true =>
        rw [if_pos rfl, findC_set_other _ _ _ _ hvc_ne_bk]
        exact hfind
    · rw [findC_del_self _ _ htmpne]
  · intro hwo2 hro
    rw [hwo2, hro]
    dsimp only
    rw [if_pos rfl]
    refine ⟨⟨_, rfl⟩, ?_, ?_, ?_, ?_⟩
    · rw [findC_set_self _ _ _ hvcne]
    · rw [findC_set_other _ _ _ _ (Ne.symm hvc_ne_tmp),
        findC_del_self _ _ htmpne]
    · intro hcb
      subst hcb
      rw [findC_set_other _ _ _ _ (Ne.symm hvc_ne_bk),
        findC_del_other _ _ _ hbk_ne_tmp,
        findC_set_other _ _ _ _ hbk_ne_tmp, if_pos rfl,
        findC_set_self _ _ _ hbkne]
    · intro k hk1 hk2 hk3
      rw [findC_set_other _ _ _ _ hk1, findC_del_other _ _ _ hk2,
        findC_set_other _ _ _ _ hk2]
      cases cb with
      | false => rfl
      | true =>
        rw [if_pos rfl, findC_set_other _ _ _ _ hk3]

/-- Witness for C8 (amended): a safe write of "xyz" over `/d/f` ("abc")
with backup requested ends with `/d/f` = "xyz", no `/d/f.tmp`, and
`/d/f.backup` = "abc". -/
theorem claim_C8_amended_witness :
    (∃ tr, (handleWriteFileSafeM fs₆ roots₆ [] (fun _ _ => WriteRes.ok)
        (fun _ _ => true) (("/d/f").toList) (("xyz").toList) true).1 =
      .ok tr)
    ∧ (handleWriteFileSafeM fs₆ roots₆ [] (fun _ _ => WriteRes.ok)
        (fun _ _ => true) (("/d/f").toList) (("xyz").toList)
        true).2.findC (strToComps (("/d/f").toList)) =
      some (FNode.file (("xyz").toList))
    ∧ (handleWriteFileSafeM fs₆ roots₆ [] (fun _ _ => WriteRes.ok)
        (fun _ _ => true) (("/d/f").toList) (("xyz").toList)
        true).2.findC (strToComps ((("/d/f").toList) ++
          ((".tmp").toList))) = none
    ∧ (handleWriteFileSafeM fs₆ roots₆ [] (fun _ _ => WriteRes.ok)
        (fun _ _ => true) (("/d/f").toList) (("xyz").toList)
        true).2.findC (strToComps ((("/d/f").toList) ++
          ((".backup").toList))) = some (FNode.file (("abc").toList)) := by
  have h := (claim_C8_amended fs₆ roots₆ [] (fun _ _ => WriteRes.ok)
    (fun _ _ => true) (("/d/f").toList) (("xyz").toList) true
    (("/d/f").toList) (("abc").toList) (by decide) (by decide) (by decide)
    (by decide) rfl).2.2.2 rfl rfl
  exact ⟨h.1, h.2.1, h.2.2.1, h.2.2.2.1 rfl⟩

/-! ## `find_duplicates` (handler_search.go:334-473, the authoritative
later version per spec §9) -/

/-- `DuplicateFile` (handler_search.go / types.go). -/
structure DuplicateFile where
  Path : List Char
  Hash : List Char
  Size : Nat
  deriving DecidableEq, Repr

/-- One file yielded by `filepath.Walk`: its path string and content. -/
structure WalkEntry where
  path : List Char
  content : List Char
  deriving DecidableEq, Repr

/-- The files `filepath.Walk` hands to the callback under `root`: the
regular-file entries of the store (`info.IsDir()` entries are skipped by
the callback; `Walk` does not follow symlinks). -/
def filesUnder (fs : FS) (root : List Comp) : List WalkEntry :=
  fs.filterMap (fun e =>
    match e.2 with
    | FNode.file c =>
      if root.isPrefixOf e.1 then some ⟨fromComps e.1, c⟩ else none
    | _ => none)

/-- The callback's `fs.validatePath(currentPath)` guard as a Bool. -/
def validB (fs : FS) (dirs : List (List Char)) (cwd : List Comp)
    (p : List Char) : Bool :=
  match validatePath fs dirs cwd p with
  | .ok _ => true
  | .error _ => false

/-- The callback's skip conditions: path validation and the
`info.Size() > 100*1024*1024` efficiency cut-off. -/
def eligB (valid : List Char → Bool) (e : WalkEntry) : Bool :=
  valid e.path && decide (e.content.length ≤ 100 * 1024 * 1024)

/-- The `DuplicateFile` record built for one walked file:
`calculateFileMD5` hashes the full content, `Size` is `info.Size()`. -/
def mkDup (md5 : List Char → List Char) (e : WalkEntry) : DuplicateFile :=
  { Path := e.path, Hash := md5 e.content, Size := e.content.length }

/-- `hashMap[hash] = append(hashMap[hash], duplicate)` on an association
list: the first entry with the key is extended, a missing key is added. -/
def addToGroup : List (List Char × List DuplicateFile) → List Char →
    DuplicateFile → List (List Char × List DuplicateFile)
  | [], h, d => [(h, [d])]
  | (k, fl) :: rest, h, d =>
    if k = h then (k, fl ++ [d]) :: rest
    else (k, fl) :: addToGroup rest h d

/-- The walk loop of `findDuplicateFiles`, also recording the path of
every file whose MD5 is computed. -/
def hashMapOfT (valid : List Char → Bool) (md5 : List Char → List Char) :
    List WalkEntry →
    List (List Char × List DuplicateFile) × List (List Char) →
    List (List Char × List DuplicateFile) × List (List Char)
  | [], acc => acc
  | e :: rest, acc =>
    if eligB valid e then
      hashMapOfT valid md5 rest
        (addToGroup acc.1 (md5 e.content) (mkDup md5 e),
          acc.2 ++ [e.path])
    else hashMapOfT valid md5 rest acc

/-- `findDuplicateFiles` (handler_search.go:410): group the walked files
by MD5 and keep only the groups with more than one member. -/
def findDuplicateFilesM (valid : List Char → Bool)
    (md5 : List Char → List Char) (entries : List WalkEntry) :
    List (List Char × List DuplicateFile) :=
  ((hashMapOfT valid md5 entries ([], [])).1).filter
    (fun g => 1 < g.2.length)

/-- Group lookup (Go's `hashMap[hash]`, empty when absent). -/
def lookupG (m : List (List Char × List DuplicateFile)) (h : List Char) :
    List DuplicateFile :=
  match m with
  | [] => []
  | (k, fl) :: rest => if k = h then fl else lookupG rest h

/-- The per-hash group the walk accumulates: the eligible walked files
with that hash, in walk order. -/
def groupFor (valid : List Char → Bool) (md5 : List Char → List Char)
    (h : List Char) (entries : List WalkEntry) : List DuplicateFile :=
  (entries.filter (eligB valid)).filterMap
    (fun e => if md5 e.content = h then some (mkDup md5 e) else none)

/-- The report loop of `handleFindDuplicates` (handler_search.go:384):
`files[0].Size * (len(files)-1)` summed over the groups with more than
one member. -/
def wastedOfGroup (g : List Char × List DuplicateFile) : Nat :=
  match g.2 with
  | [] => 0
  | f :: _ => f.Size * (g.2.length - 1)

def totalWastedSpace (dups : List (List Char × List DuplicateFile)) :
    Nat :=
  dups.foldl
    (fun acc g => if 1 < g.2.length then acc + wastedOfGroup g else acc) 0

theorem hashMapOfT_trace (valid : List Char → Bool)
    (md5 : List Char → List Char) :
    ∀ (es : List WalkEntry)
      (acc : List (List Char × List DuplicateFile) × List (List Char)),
      (hashMapOfT valid md5 es acc).2 =
        acc.2 ++ (es.filter (eligB valid)).map (fun e => e.path)
  | [], acc => by simp [hashMapOfT]
  | e :: rest, acc => by
    rw [hashMapOfT]
    by_cases he : eligB valid e
    · rw [if_pos he, hashMapOfT_trace valid md5 rest _,
        List.filter_cons_of_pos he, List.map_cons]
      simp
    · rw [if_neg he, hashMapOfT_trace valid md5 rest _,
        List.filter_cons_of_neg he]

theorem lookupG_addToGroup_self (h : List Char) (d : DuplicateFile) :
    ∀ m, lookupG (addToGroup m h d) h = lookupG m h ++ [d]
  | [] => by simp [addToGroup, lookupG]
  | (k, fl) :: rest => by
    rw [addToGroup]
    by_cases hk : k = h
    · rw [if_pos hk, lookupG, if_pos hk, lookupG, if_pos hk]
    · rw [if_neg hk, lookupG, if_neg hk, lookupG, if_neg hk,
        lookupG_addToGroup_self h d rest]

theorem lookupG_addToGroup_other (h h' : List Char) (d : DuplicateFile)
    (hne : h' ≠ h) :
    ∀ m, lookupG (addToGroup m h d) h' = lookupG m h'
  | [] => by
    rw [addToGroup]
    simp [lookupG, Ne.symm hne]
  | (k, fl) :: rest => by
    rw [addToGroup]
    by_cases hk : k = h
    · rw [if_pos hk, lookupG, lookupG,
        if_neg (fun hx => hne (hx.symm.trans hk))]
      rw [if_neg (fun hx => hne (hx.symm.trans hk))]
    · rw [if_neg hk, lookupG, lookupG]
      by_cases hk' : k = h'
      · rw [if_pos hk', if_pos hk']
      · rw [if_neg hk', if_neg hk',
          lookupG_addToGroup_other h h' d hne rest]

theorem lookupG_hashMapOfT (valid : List Char → Bool)
    (md5 : List Char → List Char) (h : List Char) :
    ∀ (es : List WalkEntry)
      (acc : List (List Char × List DuplicateFile) × List (List Char)),
      lookupG (hashMapOfT valid md5 es acc).1 h =
        lookupG acc.1 h ++ groupFor valid md5 h es
  | [], acc => by simp [hashMapOfT, groupFor]
  | e :: rest, acc => by
    rw [hashMapOfT]
    by_cases he : eligB valid e
    · rw [if_pos he, lookupG_hashMapOfT valid md5 h rest _]
      dsimp only
      conv_rhs => rw [groupFor, List.filter_cons_of_pos he,
        List.filterMap_cons]
      by_cases hh : md5 e.content = h
      · rw [hh, lookupG_addToGroup_self]
        rw [if_pos rfl]
        dsimp only
        rw [List.append_assoc]
        rfl
      · rw [lookupG_addToGroup_other _ _ _ (fun hx => hh hx.symm),
          if_neg hh]
        rfl
    · rw [if_neg he, lookupG_hashMapOfT valid md5 h rest _]
      conv_rhs => rw [groupFor, List.filter_cons_of_neg he]
      rfl

theorem keys_addToGroup (h : List Char) (d : DuplicateFile) :
    ∀ m, (addToGroup m h d).map Prod.fst =
      (if h ∈ m.map Prod.fst then m.map Prod.fst
       else m.map Prod.fst ++ [h])
  | [] => by simp [addToGroup]
  | (k, fl) :: rest => by
    rw [addToGroup]
    by_cases hk : k = h
    · rw [if_pos hk, List.map_cons, List.map_cons,
        if_pos (by rw [hk]; exact List.mem_cons_self _ _)]
    · rw [if_neg hk, List.map_cons, List.map_cons,
        keys_addToGroup h d rest]
      by_cases hmem : h ∈ rest.map Prod.fst
      · rw [if_pos hmem,
          if_pos (List.mem_cons_of_mem _ hmem)]
      · rw [if_neg hmem,
          if_neg (by
            intro hx
            rcases List.mem_cons.1 hx with hx | hx
            · exact hk hx.symm
            · exact hmem hx)]
        rfl

theorem nodup_addToGroup (h : List Char) (d : DuplicateFile)
    (m : List (List Char × List DuplicateFile))
    (hm : (m.map Prod.fst).Nodup) :
    ((addToGroup m h d).map Prod.fst).Nodup := by
  rw [keys_addToGroup]
  by_cases hmem : h ∈ m.map Prod.fst
  · rw [if_pos hmem]; exact hm
  · rw [if_neg hmem, ← List.concat_eq_append]
    exact List.Nodup.concat hmem hm

theorem nodup_hashMapOfT (valid : List Char → Bool)
    (md5 : List Char → List Char) :
    ∀ (es : List WalkEntry)
      (acc : List (List Char × List DuplicateFile) × List (List Char)),
      (acc.1.map Prod.fst).Nodup →
      ((hashMapOfT valid md5 es acc).1.map Prod.fst).Nodup
  | [], acc, ha => ha
  | e :: rest, acc, ha => by
    rw [hashMapOfT]
    by_cases he : eligB valid e
    · rw [if_pos he]
      exact nodup_hashMapOfT valid md5 rest _
        (nodup_addToGroup _ _ _ ha)
    · rw [if_neg he]
      exact nodup_hashMapOfT valid md5 rest _ ha

theorem lookupG_of_mem :
    ∀ (m : List (List Char × List DuplicateFile)),
      (m.map Prod.fst).Nodup →
      ∀ g, g ∈ m → lookupG m g.1 = g.2
  | [], _, g, hg => absurd hg (List.not_mem_nil g)
  | (k, fl) :: rest, hm, g, hg => by
    rw [List.map_cons] at hm
    rcases List.mem_cons.1 hg with hg1 | hg1
    · rw [hg1, lookupG]
      dsimp only
      rw [if_pos rfl]
    · rw [lookupG]
      have hk : k ≠ g.1 := by
        intro hx
        have h1 : g.1 ∈ rest.map Prod.fst :=
          List.mem_map.2 ⟨g, hg1, rfl⟩
        exact (List.nodup_cons.1 hm).1 (hx ▸ h1)
      rw [if_neg hk]
      exact lookupG_of_mem rest (List.nodup_cons.1 hm).2 g hg1

theorem mem_of_lookupG_ne_nil :
    ∀ (m : List (List Char × List DuplicateFile)) (h : List Char),
      lookupG m h ≠ [] → (h, lookupG m h) ∈ m
  | [], h, hne => absurd rfl hne
  | (k, fl) :: rest, h, hne => by
    rw [lookupG] at hne ⊢
    by_cases hk : k = h
    · rw [if_pos hk] at hne ⊢
      exact hk ▸ List.mem_cons_self _ _
    · rw [if_neg hk] at hne ⊢
      exact List.mem_cons_of_mem _ (mem_of_lookupG_ne_nil rest h hne)

theorem one_le_length_filterMap {α β : Type} (f : α → Option β) :
    ∀ (l : List α) (a : α), a ∈ l → (f a).isSome →
      1 ≤ (l.filterMap f).length := by
  intro l a ha hfa
  obtain ⟨b, hb⟩ := Option.isSome_iff_exists.1 hfa
  have : b ∈ l.filterMap f := List.mem_filterMap.2 ⟨a, ha, hb⟩
  exact List.length_pos.2 (List.ne_nil_of_mem this)

theorem two_le_length_filterMap {α β : Type} (f : α → Option β) :
    ∀ (l : List α) (a b : α), a ∈ l → b ∈ l → a ≠ b →
      (f a).isSome → (f b).isSome → 2 ≤ (l.filterMap f).length
  | [], a, b, ha, _, _, _, _ => absurd ha (List.not_mem_nil a)
  | x :: t, a, b, ha, hb, hne, hfa, hfb => by
    rw [List.filterMap_cons]
    by_cases hxa : x = a
    · have hbt : b ∈ t := by
        rcases List.mem_cons.1 hb with h1 | h1
        · exact absurd (h1.trans hxa) (fun hx => hne hx.symm)
        · exact h1
      obtain ⟨c, hc⟩ := Option.isSome_iff_exists.1 hfa
      rw [hxa, hc]
      dsimp only
      rw [List.length_cons]
      exact Nat.succ_le_succ (one_le_length_filterMap f t b hbt hfb)
    · by_cases hxb : x = b
      · have hat : a ∈ t := by
          rcases List.mem_cons.1 ha with h1 | h1
          · exact absurd h1.symm hxa
          · exact h1
        obtain ⟨c, hc⟩ := Option.isSome_iff_exists.1 hfb
        rw [hxb, hc]
        dsimp only
        rw [List.length_cons]
        exact Nat.succ_le_succ (one_le_length_filterMap f t a hat hfa)
      · have hat : a ∈ t := by
          rcases List.mem_cons.1 ha with h1 | h1
          · exact absurd h1.symm hxa
          · exact h1
        have hbt : b ∈ t := by
          rcases List.mem_cons.1 hb with h1 | h1
          · exact absurd h1.symm hxb
          · exact h1
        have ih := two_le_length_filterMap f t a b hat hbt hne hfa hfb
        cases hfx : f x with
        | none => exact ih
        | some c =>
          rw [List.length_cons]
          exact Nat.le_succ_of_le ih

theorem totalWasted_foldl :
    ∀ (l : List (List Char × List DuplicateFile)) (n : Nat),
      (∀ g ∈ l, 1 < g.2.length) →
      l.foldl (fun acc g =>
        if 1 < g.2.length then acc + wastedOfGroup g else acc) n =
      n + (l.map wastedOfGroup).sum
  | [], n, _ => by simp
  | g :: rest, n, h => by
    rw [List.foldl_cons, if_pos (h g (List.mem_cons_self _ _)),
      totalWasted_foldl rest _
        (fun x hx => h x (List.mem_cons_of_mem g hx)),
      List.map_cons, List.sum_cons]
    omega

/-- C9: `find_duplicates` walks the requested directory, hashes exactly
the walked valid files of size ≤ 100 MiB (none larger), groups them by
hash and returns only the groups with more than one member — each group
holding precisely the eligible files bearing its hash with their sizes,
each pair of distinct same-hash eligible files landing in a returned
group — and the reported total wasted space sums
`files[0].Size * (len(files)-1)` over the returned groups. -/
theorem claim_C9_find_duplicates (fs : FS) (dirs : List (List Char))
    (cwd : List Comp) (md5 : List Char → List Char) (root : List Comp) :
    ((hashMapOfT (validB fs dirs cwd) md5 (filesUnder fs root)
        ([], [])).2 =
      ((filesUnder fs root).filter (eligB (validB fs dirs cwd))).map
        (fun e => e.path))
    ∧ (∀ g ∈ findDuplicateFilesM (validB fs dirs cwd) md5
        (filesUnder fs root), 1 < g.2.length ∧
        g.2 = groupFor (validB fs dirs cwd) md5 g.1 (filesUnder fs root) ∧
        ∀ f ∈ g.2, f.Hash = g.1 ∧
          ∃ e ∈ filesUnder fs root,
            eligB (validB fs dirs cwd) e = true ∧
            md5 e.content = g.1 ∧ f.Path = e.path ∧
            f.Size = e.content.length)
    ∧ (∀ e ∈ filesUnder fs root, eligB (validB fs dirs cwd) e = true →
        (∃ e' ∈ filesUnder fs root, e' ≠ e ∧
          eligB (validB fs dirs cwd) e' = true ∧
          md5 e'.content = md5 e.content) →
        ∃ g ∈ findDuplicateFilesM (validB fs dirs cwd) md5
          (filesUnder fs root),
          g.1 = md5 e.content ∧ mkDup md5 e ∈ g.2)
    ∧ (totalWastedSpace (findDuplicateFilesM (validB fs dirs cwd) md5
        (filesUnder fs root)) =
      ((findDuplicateFilesM (validB fs dirs cwd) md5
        (filesUnder fs root)).map wastedOfGroup).sum) := by
  have hnodup : (((hashMapOfT (validB fs dirs cwd) md5
      (filesUnder fs root) ([], [])).1).map Prod.fst).Nodup :=
    nodup_hashMapOfT _ _ _ _ (by simp)
  have hlook : ∀ h, lookupG (hashMapOfT (validB fs dirs cwd) md5
      (filesUnder fs root) ([], [])).1 h =
      groupFor (validB fs dirs cwd) md5 h (filesUnder fs root) := by
    intro h
    rw [lookupG_hashMapOfT]
    rfl
  have hmemR : ∀ g, g ∈ findDuplicateFilesM (validB fs dirs cwd) md5
      (filesUnder fs root) ↔
      g ∈ (hashMapOfT (validB fs dirs cwd) md5 (filesUnder fs root)
        ([], [])).1 ∧ 1 < g.2.length := by
    intro g
    rw [findDuplicateFilesM, List.mem_filter]
    constructor
    · rintro ⟨h1, h2⟩
      exact ⟨h1, of_decide_eq_true h2⟩
    · rintro ⟨h1, h2⟩
      exact ⟨h1, decide_eq_true h2⟩
  refine ⟨?_, ?_, ?_, ?_⟩
  · rw [hashMapOfT_trace]
    rfl
  · intro g hg
    obtain ⟨hmem, hlen⟩ := (hmemR g).1 hg
    have hg2 : g.2 = groupFor (validB fs dirs cwd) md5 g.1
        (filesUnder fs root) := by
      rw [← hlook g.1]
      exact (lookupG_of_mem _ hnodup g hmem).symm
    refine ⟨hlen, hg2, ?_⟩
    intro f hf
    rw [hg2, groupFor] at hf
    obtain ⟨e, he, hfe⟩ := List.mem_filterMap.1 hf
    obtain ⟨heE, helig⟩ := List.mem_filter.1 he
    by_cases hh : md5 e.content = g.1
    · rw [if_pos hh] at hfe
      cases hfe
      exact ⟨hh, e, heE, helig, hh, rfl, rfl⟩
    · rw [if_neg hh] at hfe
      cases hfe
  · intro e heE helig hex
    obtain ⟨e', heE', hne', helig', hmd5'⟩ := hex
    have hdm : mkDup md5 e ∈ groupFor (validB fs dirs cwd) md5
        (md5 e.content) (filesUnder fs root) := by
      rw [groupFor]
      exact List.mem_filterMap.2 ⟨e, List.mem_filter.2 ⟨heE, helig⟩,
        by rw [if_pos rfl]⟩
    have h2le : 2 ≤ (groupFor (validB fs dirs cwd) md5
        (md5 e.content) (filesUnder fs root)).length := by
      rw [groupFor]
      refine two_le_length_filterMap _ _ e e'
        (List.mem_filter.2 ⟨heE, helig⟩)
        (List.mem_filter.2 ⟨heE', helig'⟩) (fun hx => hne' hx.symm) ?_ ?_
      · rw [if_pos rfl]
        rfl
      · rw [if_pos hmd5']
        rfl
    have hne0 : lookupG (hashMapOfT (validB fs dirs cwd) md5
        (filesUnder fs root) ([], [])).1 (md5 e.content) ≠ [] := by
      rw [hlook]
      intro hx
      rw [hx] at h2le
      cases h2le
    refine ⟨(md5 e.content, lookupG (hashMapOfT (validB fs dirs cwd) md5
      (filesUnder fs root) ([], [])).1 (md5 e.content)), ?_, rfl, ?_⟩
    · refine (hmemR _).2 ⟨mem_of_lookupG_ne_nil _ _ hne0, ?_⟩
      dsimp only
      rw [hlook]
      exact Nat.lt_of_lt_of_le Nat.one_lt_two h2le
    · dsimp only
      rw [hlook]
      exact hdm
  · have hall : ∀ g ∈ findDuplicateFilesM (validB fs dirs cwd) md5
        (filesUnder fs root), 1 < g.2.length :=
      fun g hg => ((hmemR g).1 hg).2
    rw [totalWastedSpace, totalWasted_foldl _ 0 hall]
    exact Nat.zero_add _

/-- Duplicate fixture for the C9 witness: `/d/a` and `/d/b` share the
two-byte content "xx", `/d/c` holds "yy". -/
def fs₉ : FS :=
  [(pathComps "/d", FNode.dir),
   (pathComps "/d/a", FNode.file (("xx").toList)),
   (pathComps "/d/b", FNode.file (("xx").toList)),
   (pathComps "/d/c", FNode.file (("yy").toList))]

/-- Witness for C9 (hash oracle: the identity on contents): the pair
`/d/a`, `/d/b` lands in a returned group keyed by its content; all three
small files were hashed; the reported wasted space is 2 bytes. -/
theorem claim_C9_witness :
    (∃ g ∈ findDuplicateFilesM (validB fs₉ roots₆ []) id
        (filesUnder fs₉ (pathComps "/d")),
      g.1 = ("xx").toList ∧
        mkDup id ⟨("/d/a").toList, ("xx").toList⟩ ∈ g.2)
    ∧ (hashMapOfT (validB fs₉ roots₆ []) id
        (filesUnder fs₉ (pathComps "/d")) ([], [])).2 =
        [("/d/a").toList, ("/d/b").toList, ("/d/c").toList]
    ∧ totalWastedSpace (findDuplicateFilesM (validB fs₉ roots₆ []) id
        (filesUnder fs₉ (pathComps "/d"))) = 2 := by
  refine ⟨?_, by decide, by decide⟩
  exact (claim_C9_find_duplicates fs₉ roots₆ [] id
      (pathComps "/d")).2.2.1 ⟨("/d/a").toList, ("xx").toList⟩
    (by decide) (by decide)
    ⟨⟨("/d/b").toList, ("xx").toList⟩, by decide, by decide, by decide,
      by decide⟩

end FsSrv
